import Mathlib

/-!
Shallow embedding of the Cryptodog/updater deployment core (src/updater.go).

Paths are modelled as lists of components of an absolute path (the list
["deploy", "myapp"] stands for "/deploy/myapp").  The filesystem is an
association list from such paths to nodes (directory, regular file with
string content, or symbolic link storing its target path).  All updater
code runs on Linux, so the path separator is "/" and `filepath.Separator`
is '/'.  Filesystem operations resolve symbolic links that occur along a
path (with a fuel bound standing for the kernel's ELOOP limit); paths fed
to the operations by the embedded code are already lexically cleaned, as
`filepath.Join` cleans them in the source, so resolution never needs to
process "." or ".." components.

The `frozen` field lists paths whose removal fails; it models an
unremovable object (for example an immutability attribute or a permission
error during `os.RemoveAll`) and is consulted only by `fsRemoveAll`,
mirroring that the source only ever deletes through `os.RemoveAll`.
-/

deriving instance DecidableEq for Except

inductive Node where
  | dir : Node
  | file : String → Node
  | symlink : List String → Node
deriving DecidableEq, Repr

structure FS where
  entries : List (List String × Node)
  frozen : List (List String)
deriving DecidableEq, Repr

def lookupP : List (List String × Node) → List String → Option Node
  | [], _ => none
  | kv :: rest, p => if kv.1 = p then some kv.2 else lookupP rest p

def FS.find (fs : FS) (p : List String) : Option Node :=
  lookupP fs.entries p

def eraseP : List (List String × Node) → List String → List (List String × Node)
  | [], _ => []
  | kv :: rest, p => if kv.1 = p then eraseP rest p else kv :: eraseP rest p

def FS.insert (fs : FS) (p : List String) (n : Node) : FS :=
  ⟨(p, n) :: eraseP fs.entries p, fs.frozen⟩

def FS.erase (fs : FS) (p : List String) : FS :=
  ⟨eraseP fs.entries p, fs.frozen⟩

/-- Fuel bound for symbolic-link chains (the kernel's ELOOP limit). -/
def pathFuel : Nat := 64

/-- Walk the components `rest` starting below the already-resolved absolute
path `base`, following symbolic links where present.  Mirrors kernel path
resolution for the cleaned absolute paths the source hands to the OS.
A missing intermediate component is walked over lexically; every operation
below re-checks that the parent it needs actually exists as a directory. -/
def resolveFrom (fs : FS) : Nat → List String → List String → Option (List String)
  | _, base, [] => some base
  | 0, _, _ :: _ => none
  | fuel + 1, base, c :: rest =>
    match fs.find (base ++ [c]) with
    | some (Node.symlink t) => resolveFrom fs fuel [] (t ++ rest)
    | _ => resolveFrom fs fuel (base ++ [c]) rest

/-- Follow a chain of symbolic links at the final path component, as
`open(2)` does for `os.Create`. -/
def followLink (fs : FS) : Nat → List String → Option (List String)
  | 0, q =>
    match fs.find q with
    | some (Node.symlink _) => none
    | _ => some q
  | fuel + 1, q =>
    match fs.find q with
    | some (Node.symlink t) => followLink fs fuel t
    | _ => some q

inductive Err where
  | notExist : Err
  | exist : Err
  | notDir : Err
  | isDir : Err
  | loop : Err
  | insecurePath : Err
  | unsupportedType : Err
  | notSymlink : Err
  | malformedRecord : Err
  | verificationFailed : Err
  | malformedKey : Err
  | malformedSignature : Err
  | removeFailed : Err
deriving DecidableEq, Repr

/-- Model of `os.Mkdir`: the parent must exist as a directory and the path
must not already exist (any pre-existing node gives EEXIST). -/
def fsMkdir (fs : FS) (p : List String) : FS × Option Err :=
  if p = [] then (fs, some Err.exist)
  else
    match resolveFrom fs pathFuel [] p.dropLast with
    | none => (fs, some Err.loop)
    | some rp =>
      if rp = [] ∨ fs.find rp = some Node.dir then
        let q := rp ++ [p.getLastD ""]
        match fs.find q with
        | some _ => (fs, some Err.exist)
        | none => (fs.insert q Node.dir, none)
      else (fs, some Err.notExist)

/-- Model of `os.Symlink target linkpath`: fails with EEXIST if anything
already sits at the link path; never replaces or removes an existing node. -/
def fsSymlink (fs : FS) (target : List String) (linkpath : List String) : FS × Option Err :=
  if linkpath = [] then (fs, some Err.exist)
  else
    match resolveFrom fs pathFuel [] linkpath.dropLast with
    | none => (fs, some Err.loop)
    | some rp =>
      if rp = [] ∨ fs.find rp = some Node.dir then
        let q := rp ++ [linkpath.getLastD ""]
        match fs.find q with
        | some _ => (fs, some Err.exist)
        | none => (fs.insert q (Node.symlink target), none)
      else (fs, some Err.notExist)

/-- Model of `os.Rename old new` for the renames the source performs (it
only ever renames a freshly created symbolic link): atomic, fails without
any state change when the source is missing or the target is a directory,
otherwise atomically replaces whatever non-directory node sat at `new`. -/
def fsRename (fs : FS) (oldp newp : List String) : FS × Option Err :=
  if oldp = [] ∨ newp = [] then (fs, some Err.notExist)
  else
    match resolveFrom fs pathFuel [] oldp.dropLast with
    | none => (fs, some Err.loop)
    | some rpo =>
      match resolveFrom fs pathFuel [] newp.dropLast with
      | none => (fs, some Err.loop)
      | some rpn =>
        let qo := rpo ++ [oldp.getLastD ""]
        let qn := rpn ++ [newp.getLastD ""]
        match fs.find qo with
        | none => (fs, some Err.notExist)
        | some node =>
          match fs.find qn with
          | some Node.dir => (fs, some Err.isDir)
          | _ => ((fs.erase qo).insert qn node, none)

/-- Model of `os.Create` followed by `io.Copy` (updater.go lines 347-355):
the parent must exist as a directory; a trailing symbolic link is followed;
creating over a directory fails with EISDIR; otherwise the file is created
or truncated and the entry's full content written. -/
def fsCreateWrite (fs : FS) (p : List String) (content : String) : FS × Option Err :=
  if p = [] then (fs, some Err.isDir)
  else
    match resolveFrom fs pathFuel [] p.dropLast with
    | none => (fs, some Err.loop)
    | some rp =>
      if rp = [] ∨ fs.find rp = some Node.dir then
        match followLink fs pathFuel (rp ++ [p.getLastD ""]) with
        | none => (fs, some Err.loop)
        | some q =>
          match fs.find q with
          | some Node.dir => (fs, some Err.isDir)
          | _ => (fs.insert q (Node.file content), none)
      else (fs, some Err.notExist)

/-- One step of the walk `os.MkdirAll` performs: each missing component is
created as a directory, an existing directory is kept, a regular file on
the way aborts with ENOTDIR, and a symbolic link is followed as `Stat`
follows it. -/
def mkdirAllFrom (fuel : Nat) : FS → List String → List String → FS × Option Err
  | fs, _, [] => (fs, none)
  | fs, base, c :: rest =>
    let q := base ++ [c]
    match fs.find q with
    | some Node.dir => mkdirAllFrom fuel fs q rest
    | some (Node.file _) => (fs, some Err.notDir)
    | some (Node.symlink t) =>
      match resolveFrom fs fuel [] t with
      | none => (fs, some Err.loop)
      | some rt =>
        if rt = [] ∨ fs.find rt = some Node.dir then mkdirAllFrom fuel fs rt rest
        else (fs, some Err.notDir)
    | none => mkdirAllFrom fuel (fs.insert q Node.dir) q rest

/-- Model of `os.MkdirAll` (updater.go line 341). -/
def fsMkdirAll (fs : FS) (p : List String) : FS × Option Err :=
  mkdirAllFrom pathFuel fs [] p

/-- Model of `os.RemoveAll`: removes the path and everything below it;
a missing path is not an error.  Removal fails (leaving the tree in place)
when a frozen path lies at or below the removed path. -/
def withinPath : List String → List String → Bool
  | [], _ => true
  | _ :: _, [] => false
  | a :: as, b :: bs => if a = b then withinPath as bs else false

def fsRemoveAll (fs : FS) (p : List String) : FS × Option Err :=
  if fs.frozen.any (fun f => withinPath p f) then (fs, some Err.removeFailed)
  else (⟨fs.entries.filter (fun kv => !(withinPath p kv.1)), fs.frozen⟩, none)

/-!
String-level path functions from Go's `path/filepath` and `strings`,
exactly as the extraction code uses them on untrusted archive entry names.
Both separators the source splits on ("/" for paths, "-" for release
directory names) are single characters, so `strings.Split`-style splitting
is implemented by structural recursion over the character list (the core
library's `String.splitOn` is defined by well-founded recursion, which the
kernel cannot evaluate).
-/

def splitOnCharAux (c : Char) : List Char → List Char → List String
  | [], acc => [String.mk acc.reverse]
  | ch :: rest, acc =>
    if ch = c then String.mk acc.reverse :: splitOnCharAux c rest []
    else splitOnCharAux c rest (ch :: acc)

/-- Go's `strings.Split s sep` for a one-character separator: "" yields
[""], and every occurrence of the separator starts a new piece. -/
def splitOnChar (c : Char) (s : String) : List String :=
  splitOnCharAux c s.toList []

/-- Go's `strings.Join parts sep` for a one-character separator. -/
def joinChar (c : Char) : List String → String
  | [] => ""
  | [s] => s
  | s :: rest => s ++ String.singleton c ++ joinChar c rest

def startsWithSlash (s : String) : Bool :=
  match s.toList with
  | [] => false
  | ch :: _ => ch = '/'

/-- Stack-based core of `filepath.Clean` for a rooted path: the components
`comps` are folded onto the reversed stack `acc`; empty and "." components
vanish, ".." pops the stack (and at the root is dropped). -/
def cleanStack : List String → List String → List String
  | [], acc => acc
  | c :: rest, acc =>
    if c = "" ∨ c = "." then cleanStack rest acc
    else if c = ".." then
      match acc with
      | [] => cleanStack rest []
      | _ :: acc' => cleanStack rest acc'
    else cleanStack rest (c :: acc)

/-- Stack-based core of `filepath.Clean` for a relative path, where a
leading run of ".." components survives cleaning. -/
def cleanRelStack : List String → List String → List String
  | [], acc => acc
  | c :: rest, acc =>
    if c = "" ∨ c = "." then cleanRelStack rest acc
    else if c = ".." then
      match acc with
      | [] => cleanRelStack rest [".."]
      | top :: acc' =>
        if top = ".." then cleanRelStack rest (".." :: top :: acc')
        else cleanRelStack rest acc'
    else cleanRelStack rest (c :: acc)

/-- Go's `filepath.IsLocal` on Linux: non-empty, not absolute, and the
cleaned path does not begin with a ".." component.  With the directive
`//go:debug tarinsecurepath=0` at the top of the extraction source file,
`tar.Reader.Next` returns `ErrInsecurePath` exactly when this is false for
the raw (pre-strip) header name. -/
def isLocalName (name : String) : Bool :=
  if name = "" then false
  else if startsWithSlash name then false
  else
    match (cleanRelStack (splitOnChar (Char.ofNat 47) name) []).getLast? with
    | some s => if s = ".." then false else true
    | none => true

/-- Go's `strings.SplitN s sep n` for `n > 0`: at most `n` substrings, the
last one the unsplit remainder. -/
def splitN (s : String) (sep : Char) (n : Nat) : List String :=
  if n = 0 then []
  else
    let parts := splitOnChar sep s
    if parts.length ≤ n then parts
    else parts.take (n - 1) ++ [joinChar sep (parts.drop (n - 1))]

/-- The component-stripping step of `extractTarGz` (updater.go lines
324-333): drop the first `strip` path components of the header name; if
nothing is left the result is the empty relative path. -/
def strippedRel (strip : Nat) (name : String) : String :=
  if strip = 0 then name
  else
    let components := splitN name (Char.ofNat 47) (strip + 1)
    if components.length > strip then
      joinChar (Char.ofNat 47) (components.drop strip)
    else ""

/-- `filepath.Join destination rel` (updater.go line 336) for a clean
absolute `destination` given by its components: concatenation followed by
lexical cleaning, under which ".." components of `rel` pop into (but never
above) the destination's components. -/
def joinAbs (dest : List String) (rel : String) : List String :=
  (cleanStack (splitOnChar (Char.ofNat 47) rel) dest.reverse).reverse

/-- The absolute target path the extraction loop computes for one header
name. -/
def entryTarget (dest : List String) (strip : Nat) (name : String) : List String :=
  joinAbs dest (strippedRel strip name)

/-!
The archive extractor.  An archive is modelled as the list of tar entries
the `tar.Reader` yields in order; gzip / tar framing errors are outside
the model (they abort extraction exactly like the per-entry errors
modelled here).
-/

inductive TarType where
  | dir : TarType
  | reg : TarType
  | other : TarType
deriving DecidableEq, Repr

structure TarEntry where
  name : String
  typeflag : TarType
  content : String
deriving DecidableEq, Repr

/-- The entry loop of `extractTarGz` (updater.go lines 311-360): the
insecure-path check happens inside `tarReader.Next` (enabled by
`tarinsecurepath=0`) and so fires before anything else for each entry;
`pax_global_header` entries are skipped; directory entries go through
`os.MkdirAll`; regular files through `os.Create` + `io.Copy`; any other
entry kind aborts extraction. -/
def extractLoop (dest : List String) (strip : Nat) : FS → List TarEntry → FS × Option Err
  | fs, [] => (fs, none)
  | fs, e :: rest =>
    if isLocalName e.name then
      if e.name = "pax_global_header" then extractLoop dest strip fs rest
      else
        match e.typeflag with
        | TarType.dir =>
          match fsMkdirAll fs (entryTarget dest strip e.name) with
          | (fs', none) => extractLoop dest strip fs' rest
          | (fs', some er) => (fs', some er)
        | TarType.reg =>
          match fsCreateWrite fs (entryTarget dest strip e.name) e.content with
          | (fs', none) => extractLoop dest strip fs' rest
          | (fs', some er) => (fs', some er)
        | TarType.other => (fs, some Err.unsupportedType)
    else (fs, some Err.insecurePath)

/-- `extractTarGz` (updater.go lines 302-363) on an already-decoded entry
list. -/
def extractTarGz (tar : List TarEntry) (destination : List String) (stripComponents : Nat) (fs : FS) : FS × Option Err :=
  extractLoop destination stripComponents fs tar

/-!
ReleaseStore naming and lookup (updater.go lines 104-131).  `deployDir` is
the configured deployment directory as components of an absolute path;
target names match `^[\w-]+$` (config.go) and release ids are decimal
numbers, so both are single path components and `filepath.Join` appends
them as one component.
-/

def getReleaseDir (deployDir : List String) (targetName releaseID : String) : List String :=
  deployDir ++ [targetName ++ "-" ++ releaseID]

def getReleaseSymlink (deployDir : List String) (targetName : String) : List String :=
  deployDir ++ [targetName]

/-- The temporary promotion path `releaseSymlink + ".tmp"` (updater.go
line 220): string concatenation on the joined path, so the suffix lands on
the final component. -/
def tmpLinkPath (deployDir : List String) (targetName : String) : List String :=
  deployDir ++ [targetName ++ ".tmp"]

/-- Model of `os.Lstat`: resolves the parent, never follows the final
component; `none` plays the role of the os.IsNotExist error. -/
def fsLstat (fs : FS) (p : List String) : Option Node :=
  if p = [] then some Node.dir
  else
    match resolveFrom fs pathFuel [] p.dropLast with
    | none => none
    | some rp =>
      if rp = [] ∨ fs.find rp = some Node.dir then fs.find (rp ++ [p.getLastD ""])
      else none

/-- `getLastReleaseID` (updater.go lines 112-131): Lstat the pointer,
require a symbolic link, read its target, take `filepath.Base` (the final
component of the stored, already-clean target path), split on every "-"
with `strings.Split` and demand exactly two parts, returning the second. -/
def getLastReleaseID (deployDir : List String) (targetName : String) (fs : FS) : Except Err String :=
  match fsLstat fs (getReleaseSymlink deployDir targetName) with
  | none => Except.error Err.notExist
  | some (Node.symlink t) =>
    match splitOnChar (Char.ofNat 45) (t.getLastD "/") with
    | [_, id] => Except.ok id
    | _ => Except.error Err.malformedRecord
  | some _ => Except.error Err.notSymlink

/-- `deployRelease` (updater.go lines 210-229): allocate the release
directory, extract with one stripped component, create the temporary
symbolic link, rename it onto the pointer path, then remove the previous
release directory, returning that removal's outcome as the final result. -/
def deployRelease (deployDir : List String) (targetName releaseID lastReleaseID : String)
    (tar : List TarEntry) (fs : FS) : FS × Option Err :=
  let releaseDir := getReleaseDir deployDir targetName releaseID
  match fsMkdir fs releaseDir with
  | (fs1, some e) => (fs1, some e)
  | (fs1, none) =>
    match extractTarGz tar releaseDir 1 fs1 with
    | (fs2, some e) => (fs2, some e)
    | (fs2, none) =>
      match fsSymlink fs2 releaseDir (tmpLinkPath deployDir targetName) with
      | (fs3, some e) => (fs3, some e)
      | (fs3, none) =>
        match fsRename fs3 (tmpLinkPath deployDir targetName) (getReleaseSymlink deployDir targetName) with
        | (fs4, some e) => (fs4, some e)
        | (fs4, none) => fsRemoveAll fs4 (getReleaseDir deployDir targetName lastReleaseID)

/-- The four mutation stages of `deployRelease`, exposed so theorems can
name the step at which an attempt fails. -/
def stage1 (deployDir : List String) (targetName releaseID : String) (fs : FS) : FS × Option Err :=
  fsMkdir fs (getReleaseDir deployDir targetName releaseID)

def stage2 (deployDir : List String) (targetName releaseID : String) (tar : List TarEntry) (fs : FS) : FS × Option Err :=
  extractTarGz tar (getReleaseDir deployDir targetName releaseID) 1 (stage1 deployDir targetName releaseID fs).1

def stage3 (deployDir : List String) (targetName releaseID : String) (tar : List TarEntry) (fs : FS) : FS × Option Err :=
  fsSymlink (stage2 deployDir targetName releaseID tar fs).1 (getReleaseDir deployDir targetName releaseID) (tmpLinkPath deployDir targetName)

def stage4 (deployDir : List String) (targetName releaseID : String) (tar : List TarEntry) (fs : FS) : FS × Option Err :=
  fsRename (stage3 deployDir targetName releaseID tar fs).1 (tmpLinkPath deployDir targetName) (getReleaseSymlink deployDir targetName)

/-- How `main` (updater.go lines 93-98) classifies one deployment cycle:
any non-nil error from `deployRelease` logs "update failed", otherwise
"update successful" is logged. -/
def updateOutcome (e : Option Err) : String :=
  match e with
  | some _ => "update failed"
  | none => "update successful"

/-- The target-name validation regular expression `^[\w-]+$` of
`Config.Validate` (config source, `targetNameRegex`). -/
def validTargetName (s : String) : Bool :=
  if s = "" then false
  else s.toList.all (fun c => c.isAlphanum ∨ c = '_' ∨ c = '-')

/-!
SignatureVerifier.  The minisign primitives (`minisign.DecodePublicKey`,
`minisign.DecodeSignature`, `PublicKey.Verify`) live in the external
`jedisct1/go-minisign` dependency, not in this repository's sources, so
they are abstracted into a structure of decode and check functions.
-/

structure Minisign where
  decodeKey : String → Option Nat
  decodeSig : String → Option Nat
  check : Nat → String → Nat → Bool

/-- Modelled from the spec: the minisign library calls of `verifySignature`
(updater.go lines 198-208) are an external dependency.  Per spec section
4.1 the call fails with `MalformedKey` when the key does not decode,
`MalformedSignature` when the signature does not decode, and returns
`(false, VerificationFailed)` when both decode but the signature does not
match the payload; a matching triple returns `(true, nil)`. -/
def verifySignature (m : Minisign) (publicSigningKey payload sigBytes : String) : Bool × Option Err :=
  match m.decodeKey publicSigningKey with
  | none => (false, some Err.malformedKey)
  | some pk =>
    match m.decodeSig sigBytes with
    | none => (false, some Err.malformedSignature)
    | some sig =>
      if m.check pk payload sig then (true, none)
      else (false, some Err.verificationFailed)

/-!
Decidable side predicates used in theorem hypotheses.
-/

def isSymNode : Node → Bool
  | Node.symlink _ => true
  | _ => false

def optIsSym : Option Node → Bool
  | some (Node.symlink _) => true
  | _ => false

/-- Every non-empty prefix of `p` (including `p` itself) is a directory. -/
def ancestorsDirs (fs : FS) (p : List String) : Bool :=
  (List.range p.length).all (fun i => decide (fs.find (p.take (i + 1)) = some Node.dir))

/-- No entry at or below `dest` is a symbolic link. -/
def noSymlinkUnder (fs : FS) (dest : List String) : Bool :=
  fs.entries.all (fun kv => !(withinPath dest kv.1 && isSymNode kv.2))

/-- Every entry's computed extraction target lies at or below the
destination directory. -/
def archiveStaysInside (dest : List String) (strip : Nat) (tar : List TarEntry) : Bool :=
  tar.all (fun e => withinPath dest (entryTarget dest strip e.name))

/-!
Concrete filesystem fixtures.
-/

/-- A deploy dir with no release yet. -/
def fsDeployRoot : FS := ⟨[(["deploy"], Node.dir)], []⟩

/-- A deploy dir holding one freshly allocated, still empty release
directory `/deploy/myapp-1`. -/
def fsWithRelease : FS := ⟨[(["deploy"], Node.dir), (["deploy", "myapp-1"], Node.dir)], []⟩

/-- Release archives wrapping `file.txt` in one top-level directory. -/
def tarV1 : List TarEntry := [⟨"root", TarType.dir, ""⟩, ⟨"root/file.txt", TarType.reg, "v1"⟩]

def tarV2 : List TarEntry := [⟨"root", TarType.dir, ""⟩, ⟨"root/file.txt", TarType.reg, "v2"⟩]

/-- State after deploying release "42" of `myapp` into an empty deploy dir
(`main` passes the empty string as previous release id on first deploy). -/
def afterFirstDeploy : FS × Option Err :=
  deployRelease ["deploy"] "myapp" "42" "" tarV1 fsDeployRoot

def afterSecondDeploy : FS × Option Err :=
  deployRelease ["deploy"] "myapp" "43" "42" tarV2 afterFirstDeploy.1

/-- C2: starting from a deploy directory with no active pointer, deploying
release "42" (archive root/file.txt = "v1") and then release "43" (archive
root/file.txt = "v2", previous id "42") both succeed; afterwards the
pointer /deploy/myapp is a symlink to /deploy/myapp-43, whose file.txt has
content "v2", and the directory /deploy/myapp-42 no longer exists. -/
theorem sequential_deploys_promote_and_retire :
    afterFirstDeploy.2 = none ∧
    afterFirstDeploy.1.find ["deploy", "myapp"] = some (Node.symlink ["deploy", "myapp-42"]) ∧
    afterFirstDeploy.1.find ["deploy", "myapp-42", "file.txt"] = some (Node.file "v1") ∧
    afterSecondDeploy.2 = none ∧
    afterSecondDeploy.1.find ["deploy", "myapp"] = some (Node.symlink ["deploy", "myapp-43"]) ∧
    afterSecondDeploy.1.find ["deploy", "myapp-43", "file.txt"] = some (Node.file "v2") ∧
    afterSecondDeploy.1.find ["deploy", "myapp-42"] = none := by
  decide

/-- C3: the entry name "wrapper/../evil" passes the pre-strip
`tarinsecurepath=0` check (its cleaned form "evil" is local), but after
stripping one component the remaining path "../evil" escapes the
destination: extraction reports no error and writes the file at
/deploy/evil, outside the destination /deploy/myapp-1.  This refutes the
claimed PathTraversal rejection and the claim that no file is ever written
outside destinationDir. -/
theorem extract_traversal_writes_outside_destination :
    isLocalName "wrapper/../evil" = true ∧
    (extractTarGz [⟨"wrapper/../evil", TarType.reg, "pwned"⟩] ["deploy", "myapp-1"] 1 fsWithRelease).2 = none ∧
    (extractTarGz [⟨"wrapper/../evil", TarType.reg, "pwned"⟩] ["deploy", "myapp-1"] 1 fsWithRelease).1.find
      ["deploy", "evil"] = some (Node.file "pwned") ∧
    withinPath ["deploy", "myapp-1"] ["deploy", "evil"] = false := by
  decide

/-- Pointer fixtures for `getLastReleaseID`. -/
def fsHyphenTarget : FS :=
  ⟨[(["deploy"], Node.dir), (["deploy", "my-app-42"], Node.dir),
    (["deploy", "my-app"], Node.symlink ["deploy", "my-app-42"])], []⟩

def fsPlainTarget : FS :=
  ⟨[(["deploy"], Node.dir), (["deploy", "myapp-42"], Node.dir),
    (["deploy", "myapp"], Node.symlink ["deploy", "myapp-42"])], []⟩

def fsNoDashTarget : FS :=
  ⟨[(["deploy"], Node.dir), (["deploy", "myapp"], Node.symlink ["deploy", "old"])], []⟩

/-- C4: `getLastReleaseID` splits the final segment of the link target on
EVERY "-" (`strings.Split`) and demands exactly two pieces, instead of
splitting on the last "-".  So for the config-valid target name "my-app"
(the name regular expression accepts hyphens) a pointer targeting
my-app-42 is rejected with the malformed-record error instead of yielding
"42"; a dash-free name works, and a target segment with no "-" at all is
rejected as the spec states. -/
theorem release_id_parse_rejects_hyphenated_target :
    validTargetName "my-app" = true ∧
    getLastReleaseID ["deploy"] "my-app" fsHyphenTarget = Except.error Err.malformedRecord ∧
    getLastReleaseID ["deploy"] "myapp" fsPlainTarget = Except.ok "42" ∧
    getLastReleaseID ["deploy"] "myapp" fsNoDashTarget = Except.error Err.malformedRecord := by
  decide

/-- C1 counterexample: with no active pointer, deploying an archive whose
entry "wrapper/../myapp" strips to "../myapp" creates a real directory at
the pointer path /deploy/myapp during extraction; the subsequent rename of
the temporary symlink onto that directory fails, so the attempt fails
before the rename commits, yet the pointer path is no longer absent — it
now holds a directory (and the orphaned .tmp symlink is left beside it). -/
theorem deploy_pre_rename_can_disturb_pointer :
    fsDeployRoot.find ["deploy", "myapp"] = none ∧
    (deployRelease ["deploy"] "myapp" "7" ""
      [⟨"wrapper", TarType.dir, ""⟩, ⟨"wrapper/../myapp", TarType.dir, ""⟩] fsDeployRoot).2 = some Err.isDir ∧
    (deployRelease ["deploy"] "myapp" "7" ""
      [⟨"wrapper", TarType.dir, ""⟩, ⟨"wrapper/../myapp", TarType.dir, ""⟩] fsDeployRoot).1.find
      ["deploy", "myapp"] = some Node.dir := by
  decide

/-- C5 counterexample: a regular-file entry w/sub/b whose parent directory
was never listed does NOT get its ancestors created: `os.Create` fails
with the missing-parent error, extraction aborts, and nothing is written. -/
theorem extract_missing_parent_fails_counterexample :
    extractTarGz [⟨"w/sub/b", TarType.reg, "x"⟩] ["deploy", "myapp-1"] 1 fsWithRelease
      = (fsWithRelease, some Err.notExist) := by
  decide

/-- C6 counterexample: a fully-stripped REGULAR-FILE entry is not skipped:
the code calls `os.Create` on the destination directory itself, which
fails with EISDIR and aborts extraction (a fully-stripped directory entry,
by contrast, is a harmless `MkdirAll` no-op). -/
theorem stripped_file_entry_errors_counterexample :
    extractTarGz [⟨"README", TarType.reg, "hi"⟩] ["deploy", "myapp-1"] 1 fsWithRelease
      = (fsWithRelease, some Err.isDir) ∧
    extractTarGz [⟨"wrapper", TarType.dir, ""⟩] ["deploy", "myapp-1"] 1 fsWithRelease
      = (fsWithRelease, none) := by
  decide

/-- Deploy dir serving release 42 whose release directory cannot be
removed (models a retirement failure in `os.RemoveAll`). -/
def fsFrozenOld : FS :=
  ⟨[(["deploy"], Node.dir), (["deploy", "myapp-42"], Node.dir),
    (["deploy", "myapp-42", "file.txt"], Node.file "v1"),
    (["deploy", "myapp"], Node.symlink ["deploy", "myapp-42"])],
   [["deploy", "myapp-42"]]⟩

/-- C7 counterexample: when allocation, extraction and promotion succeed
but removing the previous release directory fails, `deployRelease` returns
the removal error, so `main` logs "update failed" — not the claimed
"update successful" — even though the pointer now serves the new release. -/
theorem retire_failure_reports_update_failed :
    (deployRelease ["deploy"] "myapp" "43" "42" tarV2 fsFrozenOld).2 = some Err.removeFailed ∧
    updateOutcome (deployRelease ["deploy"] "myapp" "43" "42" tarV2 fsFrozenOld).2 = "update failed" ∧
    updateOutcome (deployRelease ["deploy"] "myapp" "43" "42" tarV2 fsFrozenOld).2 ≠ "update successful" ∧
    (deployRelease ["deploy"] "myapp" "43" "42" tarV2 fsFrozenOld).1.find ["deploy", "myapp"]
      = some (Node.symlink ["deploy", "myapp-43"]) := by
  decide

/-- Deploy dir serving release 42 with a leftover temporary symlink AND an
already-present release directory for the incoming release 43. -/
def fsTmpAndRelease : FS :=
  ⟨[(["deploy"], Node.dir), (["deploy", "myapp-43"], Node.dir),
    (["deploy", "myapp.tmp"], Node.symlink ["deploy", "myapp-42"]),
    (["deploy", "myapp-42"], Node.dir),
    (["deploy", "myapp"], Node.symlink ["deploy", "myapp-42"])], []⟩

/-- C10 counterexample: with a leftover /deploy/myapp.tmp object, a
subsequent deploy need not fail at the symlink-creation step — here the
release directory for "43" also already exists, so the call fails at the
earlier allocation step (os.Mkdir, EEXIST) and never reaches the symlink
step. -/
theorem leftover_tmp_deploy_fails_before_symlink_step :
    fsTmpAndRelease.find ["deploy", "myapp.tmp"] = some (Node.symlink ["deploy", "myapp-42"]) ∧
    (stage1 ["deploy"] "myapp" "43" fsTmpAndRelease).2 = some Err.exist ∧
    deployRelease ["deploy"] "myapp" "43" "42" tarV2 fsTmpAndRelease = (fsTmpAndRelease, some Err.exist) := by
  decide

/-- A toy instance of the abstract minisign primitives: exactly one key
string and one signature string decode, and the signature matches exactly
the payload "payload". -/
def toyMinisign : Minisign :=
  { decodeKey := fun s => if s = "KEY" then some 1 else none
    decodeSig := fun s => if s = "SIG" then some 7 else none
    check := fun pk payload sig => decide (pk = 1) && decide (payload = "payload") && decide (sig = 7) }

/-- C9 counterexample: for a well-formed key and a well-formed signature
that does not match the (tampered) payload, `verifySignature` returns
`false` TOGETHER WITH the VerificationFailed error value — not "false with
no error raised"; the matching triple returns `(true, nil)`. -/
theorem verify_mismatch_yields_error_value :
    verifySignature toyMinisign "KEY" "tampered" "SIG" = (false, some Err.verificationFailed) ∧
    (verifySignature toyMinisign "KEY" "tampered" "SIG").2 ≠ none ∧
    verifySignature toyMinisign "KEY" "payload" "SIG" = (true, none) := by
  decide

/-!
Basic lemmas about the association-list filesystem.
-/

theorem lookupP_eraseP_ne (p q : List String) (h : q ≠ p) :
    ∀ l : List (List String × Node), lookupP (eraseP l p) q = lookupP l q := by
  intro l
  induction l with
  | nil => rfl
  | cons kv rest ih =>
    by_cases hkv : kv.1 = p
    · rw [eraseP, if_pos hkv, ih, lookupP, if_neg]
      intro hq
      exact h (hq ▸ hkv).symm.symm
    · rw [eraseP, if_neg hkv, lookupP, lookupP]
      by_cases hq : kv.1 = q
      · rw [if_pos hq, if_pos hq]
      · rw [if_neg hq, if_neg hq, ih]

theorem lookupP_eraseP_self (p : List String) :
    ∀ l : List (List String × Node), lookupP (eraseP l p) p = none := by
  intro l
  induction l with
  | nil => rfl
  | cons kv rest ih =>
    by_cases hkv : kv.1 = p
    · rw [eraseP, if_pos hkv, ih]
    · rw [eraseP, if_neg hkv, lookupP, if_neg hkv, ih]

theorem FS.find_insert_self (fs : FS) (p : List String) (n : Node) :
    (fs.insert p n).find p = some n := by
  simp [FS.insert, FS.find, lookupP]

theorem FS.find_insert_ne (fs : FS) {p q : List String} (n : Node) (h : q ≠ p) :
    (fs.insert p n).find q = fs.find q := by
  rw [FS.insert, FS.find, FS.find]
  show lookupP ((p, n) :: eraseP fs.entries p) q = lookupP fs.entries q
  rw [lookupP, if_neg (Ne.symm h), lookupP_eraseP_ne p q h]

theorem FS.find_erase_ne (fs : FS) {p q : List String} (h : q ≠ p) :
    (fs.erase p).find q = fs.find q :=
  lookupP_eraseP_ne p q h fs.entries

theorem FS.find_erase_self (fs : FS) (p : List String) :
    (fs.erase p).find p = none :=
  lookupP_eraseP_self p fs.entries

theorem lookupP_mem {p : List String} {n : Node} :
    ∀ {l : List (List String × Node)}, lookupP l p = some n → (p, n) ∈ l := by
  intro l
  induction l with
  | nil => intro h; exact absurd h (by rw [lookupP]; exact Option.noConfusion)
  | cons kv rest ih =>
    intro h
    rw [lookupP] at h
    by_cases hkv : kv.1 = p
    · rw [if_pos hkv] at h
      have : kv = (p, n) := by
        cases kv
        simp only [Option.some.injEq] at h
        simp_all
      exact this ▸ List.mem_cons_self _ _
    · rw [if_neg hkv] at h
      exact List.mem_cons_of_mem _ (ih h)

theorem FS.find_mem {fs : FS} {p : List String} {n : Node} (h : fs.find p = some n) :
    (p, n) ∈ fs.entries :=
  lookupP_mem h

/-!
Lemmas about `withinPath`.
-/

theorem withinPath_iff : ∀ (d p : List String), withinPath d p = true ↔ ∃ r, p = d ++ r := by
  intro d
  induction d with
  | nil =>
    intro p
    constructor
    · intro _; exact ⟨p, rfl⟩
    · intro _; rfl
  | cons a as ih =>
    intro p
    cases p with
    | nil =>
      rw [withinPath]
      constructor
      · intro h; exact absurd h (by simp)
      · rintro ⟨r, hr⟩; exact absurd hr (by simp)
    | cons b bs =>
      rw [withinPath]
      by_cases hab : a = b
      · rw [if_pos hab, ih]
        constructor
        · rintro ⟨r, hr⟩; exact ⟨r, by rw [List.cons_append, hab, hr]⟩
        · rintro ⟨r, hr⟩
          rw [List.cons_append] at hr
          exact ⟨r, (List.cons_eq_cons.mp hr).2⟩
      · rw [if_neg hab]
        constructor
        · intro h; exact absurd h (by simp)
        · rintro ⟨r, hr⟩
          rw [List.cons_append] at hr
          exact absurd (List.cons_eq_cons.mp hr).1.symm hab

theorem withinPath_app (d r : List String) : withinPath d (d ++ r) = true :=
  (withinPath_iff d (d ++ r)).mpr ⟨r, rfl⟩

theorem withinPath_self (d : List String) : withinPath d d = true := by
  have := withinPath_app d []
  rwa [List.append_nil] at this

theorem withinPath_length {d p : List String} (h : withinPath d p = true) :
    d.length ≤ p.length := by
  obtain ⟨r, hr⟩ := (withinPath_iff d p).mp h
  subst hr
  simp

theorem withinPath_extend {d b : List String} (h : withinPath d b = true) (x : List String) :
    withinPath d (b ++ x) = true := by
  obtain ⟨r, hr⟩ := (withinPath_iff d b).mp h
  subst hr
  rw [List.append_assoc]
  exact withinPath_app d _

theorem withinPath_take {d p : List String} (h : withinPath d p = true) {j : Nat}
    (hj : d.length ≤ j) : withinPath d (p.take j) = true := by
  obtain ⟨r, hr⟩ := (withinPath_iff d p).mp h
  subst hr
  rw [List.take_append_eq_append_take, List.take_of_length_le (le_trans (le_of_eq rfl) hj)]
  exact withinPath_app d _

/-!
Lemmas about `ancestorsDirs`, `noSymlinkUnder`, and path resolution.
-/

theorem dropLast_app_single (xs : List String) (y : String) : (xs ++ [y]).dropLast = xs := by
  simp

theorem getLastD_app_single (xs : List String) (y d : String) : (xs ++ [y]).getLastD d = y := by
  cases xs <;> simp [List.getLastD]

theorem app_single_ne_nil (xs : List String) (y : String) : xs ++ [y] ≠ [] := by
  simp

theorem ancestors_iff (fs : FS) (p : List String) :
    ancestorsDirs fs p = true ↔ ∀ i < p.length, fs.find (p.take (i + 1)) = some Node.dir := by
  simp [ancestorsDirs, List.all_eq_true, List.mem_range]

theorem ancestors_self {fs : FS} {p : List String} (h : ancestorsDirs fs p = true)
    (hne : p ≠ []) : fs.find p = some Node.dir := by
  have hlen : 0 < p.length := List.length_pos.mpr hne
  have := (ancestors_iff fs p).mp h (p.length - 1) (by omega)
  rwa [Nat.sub_add_cancel hlen, List.take_length] at this

theorem ancestors_dropLast {fs : FS} {p : List String} (h : ancestorsDirs fs p = true) :
    ancestorsDirs fs p.dropLast = true := by
  rw [ancestors_iff]
  intro i hi
  rw [List.length_dropLast] at hi
  rw [List.dropLast_eq_take, List.take_take, min_eq_left (by omega)]
  exact (ancestors_iff fs p).mp h i (by omega)

theorem ancestors_insert_long {fs : FS} {p q : List String} {n : Node}
    (h : ancestorsDirs fs p = true) (hlen : p.length < q.length) :
    ancestorsDirs (fs.insert q n) p = true := by
  rw [ancestors_iff]
  intro i hi
  rw [FS.find_insert_ne]
  · exact (ancestors_iff fs p).mp h i hi
  · intro hh
    have := congrArg List.length hh
    rw [List.length_take] at this
    omega

theorem ancestors_after_mkdir {fs : FS} {dd : List String} {x : String}
    (h : ancestorsDirs fs dd = true) :
    ancestorsDirs (fs.insert (dd ++ [x]) Node.dir) (dd ++ [x]) = true := by
  rw [ancestors_iff]
  intro i hi
  rw [List.length_append, List.length_singleton] at hi
  by_cases hlast : i + 1 ≤ dd.length
  · rw [List.take_append_of_le_length hlast, FS.find_insert_ne]
    · exact (ancestors_iff fs dd).mp h i (by omega)
    · intro hh
      have := congrArg List.length hh
      rw [List.length_take, List.length_append, List.length_singleton] at this
      omega
  · have : i + 1 = dd.length + 1 := by omega
    rw [this, List.take_of_length_le (by simp)]
    exact FS.find_insert_self fs _ _

theorem all_eraseP {f : List String × Node → Bool} {l : List (List String × Node)}
    (h : l.all f = true) (p : List String) : (eraseP l p).all f = true := by
  induction l with
  | nil => rfl
  | cons kv rest ih =>
    rw [List.all_cons, Bool.and_eq_true] at h
    by_cases hkv : kv.1 = p
    · rw [eraseP, if_pos hkv]
      exact ih h.2
    · rw [eraseP, if_neg hkv, List.all_cons, Bool.and_eq_true]
      exact ⟨h.1, ih h.2⟩

theorem noSym_find {fs : FS} {dest p t : List String}
    (hns : noSymlinkUnder fs dest = true) (hw : withinPath dest p = true)
    (hf : fs.find p = some (Node.symlink t)) : False := by
  have hmem := FS.find_mem hf
  rw [noSymlinkUnder, List.all_eq_true] at hns
  have := hns _ hmem
  rw [hw] at this
  simp [isSymNode] at this

theorem optIsSym_of_noSym {fs : FS} {dest p : List String}
    (hns : noSymlinkUnder fs dest = true) (hw : withinPath dest p = true) :
    optIsSym (fs.find p) = false := by
  cases hf : fs.find p with
  | none => rfl
  | some n =>
    cases n with
    | dir => rfl
    | file c => rfl
    | symlink t => exact absurd (noSym_find hns hw hf) (fun h => h)

theorem noSym_insert {fs : FS} {dest p : List String} {n : Node}
    (hn : isSymNode n = false) (h : noSymlinkUnder fs dest = true) :
    noSymlinkUnder (fs.insert p n) dest = true := by
  rw [noSymlinkUnder] at h ⊢
  rw [FS.insert]
  show ((p, n) :: eraseP fs.entries p).all _ = true
  rw [List.all_cons, Bool.and_eq_true]
  constructor
  · simp [hn]
  · exact all_eraseP h p

theorem resolveFrom_nil (fs : FS) (fuel : Nat) (base : List String) :
    resolveFrom fs fuel base [] = some base := by
  cases fuel <;> rfl

theorem resolveFrom_lexical (fs : FS) :
    ∀ (rest base : List String) (fuel : Nat), rest.length ≤ fuel →
    (∀ i < rest.length, optIsSym (fs.find (base ++ rest.take (i + 1))) = false) →
    resolveFrom fs fuel base rest = some (base ++ rest) := by
  intro rest
  induction rest with
  | nil =>
    intro base fuel _ _
    rw [resolveFrom_nil, List.append_nil]
  | cons c r ih =>
    intro base fuel hfuel h
    cases fuel with
    | zero => exact absurd hfuel (by simp)
    | succ f =>
      have h0 : optIsSym (fs.find (base ++ [c])) = false := by
        have := h 0 (by simp)
        simpa using this
      have hrec : ∀ i < r.length, optIsSym (fs.find ((base ++ [c]) ++ r.take (i + 1))) = false := by
        intro i hi
        have := h (i + 1) (by simp; omega)
        rw [List.take_succ_cons] at this
        simpa [List.append_assoc] using this
      have hres := ih (base ++ [c]) f (by simp at hfuel ⊢; omega) hrec
      rw [resolveFrom]
      cases hf : fs.find (base ++ [c]) with
      | none =>
        rw [hres, List.append_assoc, List.singleton_append]
      | some n =>
        cases n with
        | dir => rw [hres, List.append_assoc, List.singleton_append]
        | file cont => rw [hres, List.append_assoc, List.singleton_append]
        | symlink t => rw [hf] at h0; simp [optIsSym] at h0

theorem resolveFrom_lexical_cases (fs : FS) :
    ∀ (rest base : List String) (fuel : Nat),
    (∀ i < rest.length, optIsSym (fs.find (base ++ rest.take (i + 1))) = false) →
    resolveFrom fs fuel base rest = none ∨ resolveFrom fs fuel base rest = some (base ++ rest) := by
  intro rest
  induction rest with
  | nil =>
    intro base fuel _
    right
    rw [resolveFrom_nil, List.append_nil]
  | cons c r ih =>
    intro base fuel h
    cases fuel with
    | zero => left; rfl
    | succ f =>
      have h0 : optIsSym (fs.find (base ++ [c])) = false := by
        have := h 0 (by simp)
        simpa using this
      have hrec : ∀ i < r.length, optIsSym (fs.find ((base ++ [c]) ++ r.take (i + 1))) = false := by
        intro i hi
        have := h (i + 1) (by simp; omega)
        rw [List.take_succ_cons] at this
        simpa [List.append_assoc] using this
      have hres := ih (base ++ [c]) f hrec
      rw [resolveFrom]
      cases hf : fs.find (base ++ [c]) with
      | none =>
        rcases hres with hres | hres
        · left; rw [hres]
        · right; rw [hres, List.append_assoc, List.singleton_append]
      | some n =>
        cases n with
        | dir =>
          rcases hres with hres | hres
          · left; rw [hres]
          · right; rw [hres, List.append_assoc, List.singleton_append]
        | file cont =>
          rcases hres with hres | hres
          · left; rw [hres]
          · right; rw [hres, List.append_assoc, List.singleton_append]
        | symlink t => rw [hf] at h0; simp [optIsSym] at h0

theorem resolveFrom_of_ancestors {fs : FS} {p : List String}
    (h : ancestorsDirs fs p = true) (hlen : p.length ≤ pathFuel) :
    resolveFrom fs pathFuel [] p = some p := by
  have := resolveFrom_lexical fs p [] pathFuel hlen (by
    intro i hi
    rw [List.nil_append]
    have := (ancestors_iff fs p).mp h i hi
    rw [this]
    rfl)
  rwa [List.nil_append] at this

theorem followLink_base {fs : FS} {q : List String} (fuel : Nat)
    (h : optIsSym (fs.find q) = false) : followLink fs fuel q = some q := by
  cases fuel with
  | zero =>
    rw [followLink]
    cases hf : fs.find q with
    | none => rfl
    | some n =>
      cases n with
      | dir => rfl
      | file c => rfl
      | symlink t => rw [hf] at h; simp [optIsSym] at h
  | succ f =>
    rw [followLink]
    cases hf : fs.find q with
    | none => rfl
    | some n =>
      cases n with
      | dir => rfl
      | file c => rfl
      | symlink t => rw [hf] at h; simp [optIsSym] at h

/-!
Behaviour of the individual filesystem operations under a sane deploy
directory (all ancestors of the touched path are directories).
-/

theorem dropLast_getLastD : ∀ (p : List String), p ≠ [] → p.dropLast ++ [p.getLastD ""] = p := by
  intro p
  induction p with
  | nil => intro h; exact absurd rfl h
  | cons a rest ih =>
    intro _
    cases rest with
    | nil => rfl
    | cons b bs =>
      have hr := ih (by simp)
      simp only [List.dropLast_cons₂, List.cons_append, List.cons.injEq, true_and]
      simpa using hr

theorem parent_dir_branch {fs : FS} {dd : List String}
    (hanc : ancestorsDirs fs dd = true) : dd = [] ∨ fs.find dd = some Node.dir := by
  by_cases hdd : dd = []
  · exact Or.inl hdd
  · exact Or.inr (ancestors_self hanc hdd)

theorem fsMkdir_exist {fs : FS} {dd : List String} {x : String} {n : Node}
    (hanc : ancestorsDirs fs dd = true) (hlen : dd.length ≤ pathFuel)
    (hfind : fs.find (dd ++ [x]) = some n) :
    fsMkdir fs (dd ++ [x]) = (fs, some Err.exist) := by
  unfold fsMkdir
  rw [if_neg (app_single_ne_nil dd x), dropLast_app_single,
      resolveFrom_of_ancestors hanc hlen]
  show (if dd = [] ∨ fs.find dd = some Node.dir then
      match fs.find (dd ++ [(dd ++ [x]).getLastD ""]) with
      | some _ => (fs, some Err.exist)
      | none => (fs.insert (dd ++ [(dd ++ [x]).getLastD ""]) Node.dir, none)
    else (fs, some Err.notExist)) = (fs, some Err.exist)
  rw [if_pos (parent_dir_branch hanc), getLastD_app_single, hfind]

theorem fsMkdir_ok {fs : FS} {dd : List String} {x : String}
    (hanc : ancestorsDirs fs dd = true) (hlen : dd.length ≤ pathFuel)
    (hfind : fs.find (dd ++ [x]) = none) :
    fsMkdir fs (dd ++ [x]) = (fs.insert (dd ++ [x]) Node.dir, none) := by
  unfold fsMkdir
  rw [if_neg (app_single_ne_nil dd x), dropLast_app_single,
      resolveFrom_of_ancestors hanc hlen]
  show (if dd = [] ∨ fs.find dd = some Node.dir then
      match fs.find (dd ++ [(dd ++ [x]).getLastD ""]) with
      | some _ => (fs, some Err.exist)
      | none => (fs.insert (dd ++ [(dd ++ [x]).getLastD ""]) Node.dir, none)
    else (fs, some Err.notExist)) = (fs.insert (dd ++ [x]) Node.dir, none)
  rw [if_pos (parent_dir_branch hanc), getLastD_app_single, hfind]

theorem fsSymlink_exist {fs : FS} {dd : List String} {x : String} {target : List String} {n : Node}
    (hanc : ancestorsDirs fs dd = true) (hlen : dd.length ≤ pathFuel)
    (hfind : fs.find (dd ++ [x]) = some n) :
    fsSymlink fs target (dd ++ [x]) = (fs, some Err.exist) := by
  unfold fsSymlink
  rw [if_neg (app_single_ne_nil dd x), dropLast_app_single,
      resolveFrom_of_ancestors hanc hlen]
  show (if dd = [] ∨ fs.find dd = some Node.dir then
      match fs.find (dd ++ [(dd ++ [x]).getLastD ""]) with
      | some _ => (fs, some Err.exist)
      | none => (fs.insert (dd ++ [(dd ++ [x]).getLastD ""]) (Node.symlink target), none)
    else (fs, some Err.notExist)) = (fs, some Err.exist)
  rw [if_pos (parent_dir_branch hanc), getLastD_app_single, hfind]

theorem fsSymlink_ok {fs : FS} {dd : List String} {x : String} {target : List String}
    (hanc : ancestorsDirs fs dd = true) (hlen : dd.length ≤ pathFuel)
    (hfind : fs.find (dd ++ [x]) = none) :
    fsSymlink fs target (dd ++ [x]) = (fs.insert (dd ++ [x]) (Node.symlink target), none) := by
  unfold fsSymlink
  rw [if_neg (app_single_ne_nil dd x), dropLast_app_single,
      resolveFrom_of_ancestors hanc hlen]
  show (if dd = [] ∨ fs.find dd = some Node.dir then
      match fs.find (dd ++ [(dd ++ [x]).getLastD ""]) with
      | some _ => (fs, some Err.exist)
      | none => (fs.insert (dd ++ [(dd ++ [x]).getLastD ""]) (Node.symlink target), none)
    else (fs, some Err.notExist)) = (fs.insert (dd ++ [x]) (Node.symlink target), none)
  rw [if_pos (parent_dir_branch hanc), getLastD_app_single, hfind]

theorem fsRename_spec {fs : FS} {dd : List String} {x y : String}
    (hanc : ancestorsDirs fs dd = true) (hlen : dd.length ≤ pathFuel) :
    fsRename fs (dd ++ [x]) (dd ++ [y]) =
      (match fs.find (dd ++ [x]) with
       | none => (fs, some Err.notExist)
       | some node =>
         match fs.find (dd ++ [y]) with
         | some Node.dir => (fs, some Err.isDir)
         | _ => ((fs.erase (dd ++ [x])).insert (dd ++ [y]) node, none)) := by
  unfold fsRename
  rw [if_neg (by simp), dropLast_app_single, dropLast_app_single,
      resolveFrom_of_ancestors hanc hlen]
  show (match fs.find (dd ++ [(dd ++ [x]).getLastD ""]) with
    | none => (fs, some Err.notExist)
    | some node =>
      match fs.find (dd ++ [(dd ++ [y]).getLastD ""]) with
      | some Node.dir => (fs, some Err.isDir)
      | _ => ((fs.erase (dd ++ [(dd ++ [x]).getLastD ""])).insert (dd ++ [(dd ++ [y]).getLastD ""]) node, none)) = _
  rw [getLastD_app_single, getLastD_app_single]

theorem fsCreateWrite_isDir {fs : FS} {dest : List String} {c : String}
    (hanc : ancestorsDirs fs dest = true) (hne : dest ≠ []) (hlen : dest.length ≤ pathFuel) :
    fsCreateWrite fs dest c = (fs, some Err.isDir) := by
  unfold fsCreateWrite
  rw [if_neg hne,
      resolveFrom_of_ancestors (ancestors_dropLast hanc)
        (le_trans (by rw [List.length_dropLast]; omega) hlen)]
  show (if dest.dropLast = [] ∨ fs.find dest.dropLast = some Node.dir then
      match followLink fs pathFuel (dest.dropLast ++ [dest.getLastD ""]) with
      | none => (fs, some Err.loop)
      | some q =>
        match fs.find q with
        | some Node.dir => (fs, some Err.isDir)
        | _ => (fs.insert q (Node.file c), none)
    else (fs, some Err.notExist)) = (fs, some Err.isDir)
  rw [if_pos (parent_dir_branch (ancestors_dropLast hanc)), dropLast_getLastD dest hne,
      followLink_base pathFuel (by rw [ancestors_self hanc hne]; rfl)]
  show (match fs.find dest with
    | some Node.dir => (fs, some Err.isDir)
    | _ => (fs.insert dest (Node.file c), none)) = (fs, some Err.isDir)
  rw [ancestors_self hanc hne]

theorem mkdirAllFrom_dirs (fs : FS) (fuel : Nat) :
    ∀ (rest base : List String),
    (∀ i < rest.length, fs.find (base ++ rest.take (i + 1)) = some Node.dir) →
    mkdirAllFrom fuel fs base rest = (fs, none) := by
  intro rest
  induction rest with
  | nil => intro base _; rfl
  | cons c r ih =>
    intro base h
    have h0 : fs.find (base ++ [c]) = some Node.dir := by
      have := h 0 (by simp)
      simpa using this
    rw [mkdirAllFrom]
    show (match fs.find (base ++ [c]) with
      | some Node.dir => mkdirAllFrom fuel fs (base ++ [c]) r
      | some (Node.file _) => (fs, some Err.notDir)
      | some (Node.symlink t) =>
        match resolveFrom fs fuel [] t with
        | none => (fs, some Err.loop)
        | some rt =>
          if rt = [] ∨ fs.find rt = some Node.dir then mkdirAllFrom fuel fs rt r
          else (fs, some Err.notDir)
      | none => mkdirAllFrom fuel (fs.insert (base ++ [c]) Node.dir) (base ++ [c]) r) = (fs, none)
    rw [h0]
    exact ih (base ++ [c]) (by
      intro i hi
      have := h (i + 1) (by simp; omega)
      rw [List.take_succ_cons] at this
      simpa [List.append_assoc] using this)

theorem fsMkdirAll_of_ancestors {fs : FS} {p : List String}
    (h : ancestorsDirs fs p = true) : fsMkdirAll fs p = (fs, none) := by
  unfold fsMkdirAll
  exact mkdirAllFrom_dirs fs pathFuel p [] (by
    intro i hi
    rw [List.nil_append]
    exact (ancestors_iff fs p).mp h i hi)

/-!
Every operation either succeeds or leaves the filesystem untouched (the
failing operations of the promotion protocol are atomic no-ops).
-/

theorem fsMkdir_cases (fs : FS) (p : List String) :
    (fsMkdir fs p).1 = fs ∨ (fsMkdir fs p).2 = none := by
  unfold fsMkdir
  split
  · left; rfl
  · split
    · left; rfl
    · split
      · dsimp only
        split
        · left; rfl
        · right; rfl
      · left; rfl

theorem fsSymlink_cases (fs : FS) (target linkpath : List String) :
    (fsSymlink fs target linkpath).1 = fs ∨ (fsSymlink fs target linkpath).2 = none := by
  unfold fsSymlink
  split
  · left; rfl
  · split
    · left; rfl
    · split
      · dsimp only
        split
        · left; rfl
        · right; rfl
      · left; rfl

theorem fsRename_cases (fs : FS) (oldp newp : List String) :
    (fsRename fs oldp newp).1 = fs ∨ (fsRename fs oldp newp).2 = none := by
  unfold fsRename
  split
  · left; rfl
  · split
    · left; rfl
    · split
      · left; rfl
      · dsimp only
        split
        · left; rfl
        · split
          · left; rfl
          · right; rfl

theorem fsRemoveAll_cases (fs : FS) (p : List String) :
    (fsRemoveAll fs p).1 = fs ∨ (fsRemoveAll fs p).2 = none := by
  unfold fsRemoveAll
  split
  · left; rfl
  · right; rfl

theorem fsMkdir_fail {fs : FS} {p : List String} {e : Err}
    (h : (fsMkdir fs p).2 = some e) : (fsMkdir fs p).1 = fs := by
  rcases fsMkdir_cases fs p with hc | hc
  · exact hc
  · rw [hc] at h; exact absurd h (by simp)

theorem fsSymlink_fail {fs : FS} {target linkpath : List String} {e : Err}
    (h : (fsSymlink fs target linkpath).2 = some e) : (fsSymlink fs target linkpath).1 = fs := by
  rcases fsSymlink_cases fs target linkpath with hc | hc
  · exact hc
  · rw [hc] at h; exact absurd h (by simp)

theorem fsRename_fail {fs : FS} {oldp newp : List String} {e : Err}
    (h : (fsRename fs oldp newp).2 = some e) : (fsRename fs oldp newp).1 = fs := by
  rcases fsRename_cases fs oldp newp with hc | hc
  · exact hc
  · rw [hc] at h; exact absurd h (by simp)

theorem fsRemoveAll_fail {fs : FS} {p : List String} {e : Err}
    (h : (fsRemoveAll fs p).2 = some e) : (fsRemoveAll fs p).1 = fs := by
  rcases fsRemoveAll_cases fs p with hc | hc
  · exact hc
  · rw [hc] at h; exact absurd h (by simp)

/-!
`deployRelease` decomposed into its stages.
-/

theorem deploy_eq_stage1 {dd : List String} {tn rid lrid : String} {tar : List TarEntry} {fs : FS}
    {e : Err} (h : (stage1 dd tn rid fs).2 = some e) :
    deployRelease dd tn rid lrid tar fs = stage1 dd tn rid fs := by
  unfold stage1 at h
  unfold deployRelease stage1
  dsimp only
  rcases hm : fsMkdir fs (getReleaseDir dd tn rid) with ⟨fs1, e1⟩
  rw [hm] at h
  cases e1 with
  | none => simp at h
  | some e' => rfl

theorem deploy_eq_stage2 {dd : List String} {tn rid lrid : String} {tar : List TarEntry} {fs : FS}
    {e : Err} (h1 : (stage1 dd tn rid fs).2 = none)
    (h2 : (stage2 dd tn rid tar fs).2 = some e) :
    deployRelease dd tn rid lrid tar fs = stage2 dd tn rid tar fs := by
  unfold stage1 at h1
  unfold stage2 stage1 at h2
  unfold deployRelease stage2 stage1
  dsimp only
  rcases hm : fsMkdir fs (getReleaseDir dd tn rid) with ⟨fs1, e1⟩
  rw [hm] at h1 h2
  dsimp only at h1 h2
  subst h1
  dsimp only
  rcases hx : extractTarGz tar (getReleaseDir dd tn rid) 1 fs1 with ⟨fs2, e2⟩
  rw [hx] at h2
  cases e2 with
  | none => simp at h2
  | some e' => rfl

theorem deploy_eq_stage3 {dd : List String} {tn rid lrid : String} {tar : List TarEntry} {fs : FS}
    {e : Err} (h1 : (stage1 dd tn rid fs).2 = none)
    (h2 : (stage2 dd tn rid tar fs).2 = none)
    (h3 : (stage3 dd tn rid tar fs).2 = some e) :
    deployRelease dd tn rid lrid tar fs = stage3 dd tn rid tar fs := by
  unfold stage1 at h1
  unfold stage2 stage1 at h2
  unfold stage3 stage2 stage1 at h3
  unfold deployRelease stage3 stage2 stage1
  dsimp only
  rcases hm : fsMkdir fs (getReleaseDir dd tn rid) with ⟨fs1, e1⟩
  rw [hm] at h1 h2 h3
  dsimp only at h1 h2 h3
  subst h1
  dsimp only
  rcases hx : extractTarGz tar (getReleaseDir dd tn rid) 1 fs1 with ⟨fs2, e2⟩
  rw [hx] at h2 h3
  dsimp only at h2 h3
  subst h2
  dsimp only
  rcases hs : fsSymlink fs2 (getReleaseDir dd tn rid) (tmpLinkPath dd tn) with ⟨fs3, e3⟩
  rw [hs] at h3
  cases e3 with
  | none => simp at h3
  | some e' => rfl

theorem deploy_eq_stage4 {dd : List String} {tn rid lrid : String} {tar : List TarEntry} {fs : FS}
    {e : Err} (h1 : (stage1 dd tn rid fs).2 = none)
    (h2 : (stage2 dd tn rid tar fs).2 = none)
    (h3 : (stage3 dd tn rid tar fs).2 = none)
    (h4 : (stage4 dd tn rid tar fs).2 = some e) :
    deployRelease dd tn rid lrid tar fs = stage4 dd tn rid tar fs := by
  unfold stage1 at h1
  unfold stage2 stage1 at h2
  unfold stage3 stage2 stage1 at h3
  unfold stage4 stage3 stage2 stage1 at h4
  unfold deployRelease stage4 stage3 stage2 stage1
  dsimp only
  rcases hm : fsMkdir fs (getReleaseDir dd tn rid) with ⟨fs1, e1⟩
  rw [hm] at h1 h2 h3 h4
  dsimp only at h1 h2 h3 h4
  subst h1
  dsimp only
  rcases hx : extractTarGz tar (getReleaseDir dd tn rid) 1 fs1 with ⟨fs2, e2⟩
  rw [hx] at h2 h3 h4
  dsimp only at h2 h3 h4
  subst h2
  dsimp only
  rcases hs : fsSymlink fs2 (getReleaseDir dd tn rid) (tmpLinkPath dd tn) with ⟨fs3, e3⟩
  rw [hs] at h3 h4
  dsimp only at h3 h4
  subst h3
  dsimp only
  rcases hr : fsRename fs3 (tmpLinkPath dd tn) (getReleaseSymlink dd tn) with ⟨fs4, e4⟩
  rw [hr] at h4
  cases e4 with
  | none => simp at h4
  | some e' => rfl

theorem deploy_eq_retire {dd : List String} {tn rid lrid : String} {tar : List TarEntry} {fs : FS}
    (h1 : (stage1 dd tn rid fs).2 = none)
    (h2 : (stage2 dd tn rid tar fs).2 = none)
    (h3 : (stage3 dd tn rid tar fs).2 = none)
    (h4 : (stage4 dd tn rid tar fs).2 = none) :
    deployRelease dd tn rid lrid tar fs =
      fsRemoveAll (stage4 dd tn rid tar fs).1 (getReleaseDir dd tn lrid) := by
  unfold stage1 at h1
  unfold stage2 stage1 at h2
  unfold stage3 stage2 stage1 at h3
  unfold stage4 stage3 stage2 stage1 at h4
  unfold deployRelease stage4 stage3 stage2 stage1
  dsimp only
  rcases hm : fsMkdir fs (getReleaseDir dd tn rid) with ⟨fs1, e1⟩
  rw [hm] at h1 h2 h3 h4
  dsimp only at h1 h2 h3 h4
  subst h1
  dsimp only
  rcases hx : extractTarGz tar (getReleaseDir dd tn rid) 1 fs1 with ⟨fs2, e2⟩
  rw [hx] at h2 h3 h4
  dsimp only at h2 h3 h4
  subst h2
  dsimp only
  rcases hs : fsSymlink fs2 (getReleaseDir dd tn rid) (tmpLinkPath dd tn) with ⟨fs3, e3⟩
  rw [hs] at h3 h4
  dsimp only at h3 h4
  subst h3
  dsimp only
  rcases hr : fsRename fs3 (tmpLinkPath dd tn) (getReleaseSymlink dd tn) with ⟨fs4, e4⟩
  rw [hr] at h4
  dsimp only at h4
  subst h4
  rfl

/-!
Frame and invariant lemmas for extraction: under a destination whose
ancestors are directories and whose subtree holds no symbolic links, an
extraction step touches only paths strictly below the destination.
-/

theorem mkdirAllFrom_walk (fuel : Nat) (fs : FS) :
    ∀ (pre rest base : List String),
    (∀ i < pre.length, fs.find (base ++ pre.take (i + 1)) = some Node.dir) →
    mkdirAllFrom fuel fs base (pre ++ rest) = mkdirAllFrom fuel fs (base ++ pre) rest := by
  intro pre
  induction pre with
  | nil => intro rest base _; simp
  | cons c pr ih =>
    intro rest base h
    have h0 : fs.find (base ++ [c]) = some Node.dir := by
      have := h 0 (by simp)
      simpa using this
    rw [List.cons_append, mkdirAllFrom]
    rw [h0]
    have hrec := ih rest (base ++ [c]) (by
      intro i hi
      have := h (i + 1) (by simp; omega)
      rw [List.take_succ_cons] at this
      simpa [List.append_assoc] using this)
    rw [hrec, List.append_assoc, List.singleton_append]

theorem ne_of_withinPath_length {dest q : List String}
    (_hw : withinPath dest q = true) (hlen : dest.length < q.length) : q ≠ dest := by
  intro hh
  rw [hh] at hlen
  omega

theorem mkdirAllFrom_under (dest : List String) (fuel : Nat) :
    ∀ (r : List String) (fs : FS) (base : List String),
    ancestorsDirs fs dest = true → noSymlinkUnder fs dest = true →
    withinPath dest base = true →
    (∀ p, (withinPath dest p = false ∨ p = dest) →
      (mkdirAllFrom fuel fs base r).1.find p = fs.find p) ∧
    ancestorsDirs (mkdirAllFrom fuel fs base r).1 dest = true ∧
    noSymlinkUnder (mkdirAllFrom fuel fs base r).1 dest = true := by
  intro r
  induction r with
  | nil =>
    intro fs base hanc hns _
    exact ⟨fun p _ => rfl, hanc, hns⟩
  | cons c r' ih =>
    intro fs base hanc hns hbase
    have hqw : withinPath dest (base ++ [c]) = true := withinPath_extend hbase [c]
    have hqlen : dest.length < (base ++ [c]).length := by
      have := withinPath_length hbase
      rw [List.length_append, List.length_singleton]
      omega
    have hqne : base ++ [c] ≠ dest := ne_of_withinPath_length hqw hqlen
    rw [mkdirAllFrom]
    cases hf : fs.find (base ++ [c]) with
    | some n =>
      cases n with
      | dir =>
        dsimp only
        exact ih fs (base ++ [c]) hanc hns hqw
      | file cont =>
        dsimp only
        exact ⟨fun p _ => rfl, hanc, hns⟩
      | symlink t =>
        exact (noSym_find hns hqw hf).elim
    | none =>
      dsimp only
      have hanc' : ancestorsDirs (fs.insert (base ++ [c]) Node.dir) dest = true :=
        ancestors_insert_long hanc hqlen
      have hns' : noSymlinkUnder (fs.insert (base ++ [c]) Node.dir) dest = true :=
        noSym_insert (by rfl) hns
      obtain ⟨hframe, hanc2, hns2⟩ := ih (fs.insert (base ++ [c]) Node.dir) (base ++ [c]) hanc' hns' hqw
      refine ⟨?_, hanc2, hns2⟩
      intro p hp
      rw [hframe p hp, FS.find_insert_ne]
      rcases hp with hp | hp
      · intro hh
        rw [hh] at hp
        rw [hqw] at hp
        exact Bool.noConfusion hp
      · rw [hp]
        exact fun hh => hqne hh.symm

theorem fsMkdirAll_under {dest : List String} {target : List String} {fs : FS}
    (hanc : ancestorsDirs fs dest = true) (hns : noSymlinkUnder fs dest = true)
    (hw : withinPath dest target = true) :
    (∀ p, (withinPath dest p = false ∨ p = dest) →
      (fsMkdirAll fs target).1.find p = fs.find p) ∧
    ancestorsDirs (fsMkdirAll fs target).1 dest = true ∧
    noSymlinkUnder (fsMkdirAll fs target).1 dest = true := by
  obtain ⟨r, hr⟩ := (withinPath_iff dest target).mp hw
  subst hr
  unfold fsMkdirAll
  have hwalk := mkdirAllFrom_walk pathFuel fs dest r [] (by
    intro i hi
    rw [List.nil_append]
    exact (ancestors_iff fs dest).mp hanc i hi)
  rw [List.nil_append] at hwalk
  rw [hwalk]
  exact mkdirAllFrom_under dest pathFuel r fs dest hanc hns (withinPath_self dest)

theorem mkdirAllFrom_dir_keep (fuel : Nat) :
    ∀ (r : List String) (fs : FS) (base p : List String), fs.find p = some Node.dir →
    (mkdirAllFrom fuel fs base r).1.find p = some Node.dir := by
  intro r
  induction r with
  | nil => intro fs base p hp; exact hp
  | cons c r' ih =>
    intro fs base p hp
    rw [mkdirAllFrom]
    cases hf : fs.find (base ++ [c]) with
    | some n =>
      cases n with
      | dir =>
        dsimp only
        exact ih fs (base ++ [c]) p hp
      | file cont => exact hp
      | symlink t =>
        dsimp only
        cases hres : resolveFrom fs fuel [] t with
        | none => exact hp
        | some rt =>
          dsimp only
          by_cases hpar : rt = [] ∨ fs.find rt = some Node.dir
          · rw [if_pos hpar]
            exact ih fs rt p hp
          · rw [if_neg hpar]
            exact hp
    | none =>
      dsimp only
      have hpne : p ≠ base ++ [c] := by
        intro hh
        rw [hh, hf] at hp
        exact Option.noConfusion hp
      exact ih (fs.insert (base ++ [c]) Node.dir) (base ++ [c]) p
        (by rw [FS.find_insert_ne _ _ hpne]; exact hp)

theorem fsMkdirAll_dir_keep {fs : FS} (target : List String) {p : List String}
    (hp : fs.find p = some Node.dir) :
    (fsMkdirAll fs target).1.find p = some Node.dir :=
  mkdirAllFrom_dir_keep pathFuel target fs [] p hp

theorem fsCreateWrite_under {dest target : List String} {fs : FS} (c : String)
    (hne : dest ≠ [])
    (hanc : ancestorsDirs fs dest = true) (hns : noSymlinkUnder fs dest = true)
    (hw : withinPath dest target = true) :
    (∀ p, (withinPath dest p = false ∨ p = dest) →
      (fsCreateWrite fs target c).1.find p = fs.find p) ∧
    ancestorsDirs (fsCreateWrite fs target c).1 dest = true ∧
    noSymlinkUnder (fsCreateWrite fs target c).1 dest = true := by
  unfold fsCreateWrite
  by_cases h0 : target = []
  · rw [if_pos h0]
    exact ⟨fun p _ => rfl, hanc, hns⟩
  · rw [if_neg h0]
    have hpref : ∀ i < target.dropLast.length,
        optIsSym (fs.find ([] ++ target.dropLast.take (i + 1))) = false := by
      intro i hi
      rw [List.nil_append]
      rw [List.length_dropLast] at hi
      rw [List.dropLast_eq_take, List.take_take, min_eq_left (by omega)]
      by_cases hcmp : i + 1 ≤ dest.length
      · obtain ⟨r, hr⟩ := (withinPath_iff dest target).mp hw
        rw [hr, List.take_append_of_le_length hcmp,
            (ancestors_iff fs dest).mp hanc i (by omega)]
        rfl
      · exact optIsSym_of_noSym hns (withinPath_take hw (by omega))
    rcases resolveFrom_lexical_cases fs target.dropLast [] pathFuel hpref with hres | hres
    · rw [hres]
      exact ⟨fun p _ => rfl, hanc, hns⟩
    · rw [List.nil_append] at hres
      rw [hres]
      dsimp only
      by_cases hpar : target.dropLast = [] ∨ fs.find target.dropLast = some Node.dir
      · rw [if_pos hpar, dropLast_getLastD target h0,
            followLink_base pathFuel (optIsSym_of_noSym hns hw)]
        dsimp only
        cases hft : fs.find target with
        | some n =>
          cases n with
          | dir =>
            dsimp only
            exact ⟨fun p _ => rfl, hanc, hns⟩
          | file cont =>
            dsimp only
            have htne : target ≠ dest := by
              intro hh
              rw [hh, ancestors_self hanc hne] at hft
              simp at hft
            have hlen : dest.length < target.length := by
              obtain ⟨r, hr⟩ := (withinPath_iff dest target).mp hw
              cases r with
              | nil => rw [List.append_nil] at hr; exact absurd hr htne
              | cons a as => rw [hr]; simp
            refine ⟨?_, ancestors_insert_long hanc hlen, noSym_insert (by rfl) hns⟩
            intro p hp
            rw [FS.find_insert_ne]
            rcases hp with hp | hp
            · intro hh
              rw [hh, hw] at hp
              exact Bool.noConfusion hp
            · rw [hp]
              exact fun hh => htne hh.symm
          | symlink t => exact (noSym_find hns hw hft).elim
        | none =>
          dsimp only
          have htne : target ≠ dest := by
            intro hh
            rw [hh, ancestors_self hanc hne] at hft
            simp at hft
          have hlen : dest.length < target.length := by
            obtain ⟨r, hr⟩ := (withinPath_iff dest target).mp hw
            cases r with
            | nil => rw [List.append_nil] at hr; exact absurd hr htne
            | cons a as => rw [hr]; simp
          refine ⟨?_, ancestors_insert_long hanc hlen, noSym_insert (by rfl) hns⟩
          intro p hp
          rw [FS.find_insert_ne]
          rcases hp with hp | hp
          · intro hh
            rw [hh, hw] at hp
            exact Bool.noConfusion hp
          · rw [hp]
            exact fun hh => htne hh.symm
      · rw [if_neg hpar]
        exact ⟨fun p _ => rfl, hanc, hns⟩

theorem fsCreateWrite_dir_keep (fs : FS) (p : List String) (c : String) {q : List String}
    (hq : fs.find q = some Node.dir) :
    (fsCreateWrite fs p c).1.find q = some Node.dir := by
  unfold fsCreateWrite
  by_cases h0 : p = []
  · rw [if_pos h0]
    exact hq
  · rw [if_neg h0]
    cases hres : resolveFrom fs pathFuel [] p.dropLast with
    | none => exact hq
    | some rp =>
      dsimp only
      by_cases hpar : rp = [] ∨ fs.find rp = some Node.dir
      · rw [if_pos hpar]
        cases hfl : followLink fs pathFuel (rp ++ [p.getLastD ""]) with
        | none => exact hq
        | some q' =>
          dsimp only
          cases hft : fs.find q' with
          | some n =>
            cases n with
            | dir => exact hq
            | file cont =>
              dsimp only
              rw [FS.find_insert_ne]
              · exact hq
              · intro hh
                rw [hh, hft] at hq
                simp at hq
            | symlink t =>
              dsimp only
              rw [FS.find_insert_ne]
              · exact hq
              · intro hh
                rw [hh, hft] at hq
                simp at hq
          | none =>
            dsimp only
            rw [FS.find_insert_ne]
            · exact hq
            · intro hh
              rw [hh, hft] at hq
              simp at hq
      · rw [if_neg hpar]
        exact hq

theorem extract_inv (dest : List String) (strip : Nat) (hdne : dest ≠ []) :
    ∀ (tar : List TarEntry) (fs : FS),
    ancestorsDirs fs dest = true → noSymlinkUnder fs dest = true →
    archiveStaysInside dest strip tar = true →
    (∀ p, (withinPath dest p = false ∨ p = dest) →
      (extractLoop dest strip fs tar).1.find p = fs.find p) ∧
    ancestorsDirs (extractLoop dest strip fs tar).1 dest = true ∧
    noSymlinkUnder (extractLoop dest strip fs tar).1 dest = true := by
  intro tar
  induction tar with
  | nil =>
    intro fs hanc hns _
    exact ⟨fun p _ => rfl, hanc, hns⟩
  | cons e rest ih =>
    intro fs hanc hns hin
    have hin0 : withinPath dest (entryTarget dest strip e.name) = true := by
      rw [archiveStaysInside, List.all_cons, Bool.and_eq_true] at hin
      exact hin.1
    have hinr : archiveStaysInside dest strip rest = true := by
      rw [archiveStaysInside, List.all_cons, Bool.and_eq_true] at hin
      exact hin.2
    rw [extractLoop]
    by_cases hloc : isLocalName e.name = true
    · rw [if_pos hloc]
      by_cases hpax : e.name = "pax_global_header"
      · rw [if_pos hpax]
        exact ih fs hanc hns hinr
      · rw [if_neg hpax]
        cases htf : e.typeflag with
        | dir =>
          dsimp only
          obtain ⟨hf1, ha1, hn1⟩ := fsMkdirAll_under hanc hns hin0
          rcases hmk : fsMkdirAll fs (entryTarget dest strip e.name) with ⟨fs', er⟩
          rw [hmk] at hf1 ha1 hn1
          dsimp only at hf1 ha1 hn1
          cases er with
          | none =>
            obtain ⟨hf2, ha2, hn2⟩ := ih fs' ha1 hn1 hinr
            exact ⟨fun p hp => (hf2 p hp).trans (hf1 p hp), ha2, hn2⟩
          | some e' =>
            exact ⟨hf1, ha1, hn1⟩
        | reg =>
          dsimp only
          obtain ⟨hf1, ha1, hn1⟩ := fsCreateWrite_under e.content hdne hanc hns hin0
          rcases hmk : fsCreateWrite fs (entryTarget dest strip e.name) e.content with ⟨fs', er⟩
          rw [hmk] at hf1 ha1 hn1
          dsimp only at hf1 ha1 hn1
          cases er with
          | none =>
            obtain ⟨hf2, ha2, hn2⟩ := ih fs' ha1 hn1 hinr
            exact ⟨fun p hp => (hf2 p hp).trans (hf1 p hp), ha2, hn2⟩
          | some e' =>
            exact ⟨hf1, ha1, hn1⟩
        | other =>
          exact ⟨fun p _ => rfl, hanc, hns⟩
    · rw [if_neg hloc]
      exact ⟨fun p _ => rfl, hanc, hns⟩

theorem extract_dir_keep (dest : List String) (strip : Nat) :
    ∀ (tar : List TarEntry) (fs : FS) (p : List String), fs.find p = some Node.dir →
    (extractLoop dest strip fs tar).1.find p = some Node.dir := by
  intro tar
  induction tar with
  | nil => intro fs p hp; exact hp
  | cons e rest ih =>
    intro fs p hp
    rw [extractLoop]
    by_cases hloc : isLocalName e.name = true
    · rw [if_pos hloc]
      by_cases hpax : e.name = "pax_global_header"
      · rw [if_pos hpax]
        exact ih fs p hp
      · rw [if_neg hpax]
        cases htf : e.typeflag with
        | dir =>
          dsimp only
          rcases hmk : fsMkdirAll fs (entryTarget dest strip e.name) with ⟨fs', er⟩
          have hkeep : fs'.find p = some Node.dir := by
            have := fsMkdirAll_dir_keep (entryTarget dest strip e.name) hp
            rwa [hmk] at this
          cases er with
          | none => exact ih fs' p hkeep
          | some e' => exact hkeep
        | reg =>
          dsimp only
          rcases hmk : fsCreateWrite fs (entryTarget dest strip e.name) e.content with ⟨fs', er⟩
          have hkeep : fs'.find p = some Node.dir := by
            have := fsCreateWrite_dir_keep fs (entryTarget dest strip e.name) e.content hp
            rwa [hmk] at this
          cases er with
          | none => exact ih fs' p hkeep
          | some e' => exact hkeep
        | other => exact hp
    · rw [if_neg hloc]
      exact hp

/-!
Helper facts about the deployment paths: the release directory, the
pointer and the temporary link are three distinct siblings in the deploy
directory.
-/

theorem withinPath_sibling {dd : List String} {x y : String} (h : x ≠ y) :
    withinPath (dd ++ [x]) (dd ++ [y]) = false := by
  cases hw : withinPath (dd ++ [x]) (dd ++ [y]) with
  | false => rfl
  | true =>
    obtain ⟨r, hr⟩ := (withinPath_iff _ _).mp hw
    have hlenr := congrArg List.length hr
    rw [List.length_append, List.length_append, List.length_append,
        List.length_singleton, List.length_singleton] at hlenr
    have hre : r = [] := List.length_eq_zero.mp (by omega)
    subst hre
    rw [List.append_nil] at hr
    have hxy := List.append_inj_right hr.symm (by rfl)
    exact absurd (List.cons_eq_cons.mp hxy).1 h

theorem relname_ne_target (tn rid : String) : tn ++ "-" ++ rid ≠ tn := by
  intro hh
  have := congrArg String.length hh
  rw [String.length_append, String.length_append] at this
  have hone : ("-" : String).length = 1 := by decide
  omega

theorem tmpname_ne_target (tn : String) : tn ++ ".tmp" ≠ tn := by
  intro hh
  have := congrArg String.length hh
  rw [String.length_append] at this
  have hfour : (".tmp" : String).length = 4 := by decide
  omega

theorem relname_ne_tmpname (tn rid : String) : tn ++ "-" ++ rid ≠ tn ++ ".tmp" := by
  intro hh
  have hd := congrArg String.data hh
  rw [String.data_append, String.data_append, String.data_append, List.append_assoc] at hd
  have hcd := List.append_inj_right hd (by rfl)
  rw [show ("-" : String).data = ['-'] from rfl,
      show (".tmp" : String).data = ['.', 't', 'm', 'p'] from rfl] at hcd
  rw [List.singleton_append] at hcd
  exact absurd (List.cons_eq_cons.mp hcd).1 (by decide)

theorem ancestors_of_concat {fs : FS} {dd : List String} {x : String}
    (h : ancestorsDirs fs (dd ++ [x]) = true) : ancestorsDirs fs dd = true := by
  have := ancestors_dropLast h
  rwa [dropLast_app_single] at this

/-!
Characterizations of the successful stages.
-/

theorem stage1_ok {dd : List String} {tn rid : String} {fs : FS}
    (hanc : ancestorsDirs fs dd = true) (hlen : dd.length ≤ pathFuel)
    (h1 : (stage1 dd tn rid fs).2 = none) :
    fs.find (getReleaseDir dd tn rid) = none ∧
    (stage1 dd tn rid fs).1 = fs.insert (getReleaseDir dd tn rid) Node.dir := by
  unfold stage1 at h1 ⊢
  simp only [getReleaseDir] at h1 ⊢
  cases hfd : fs.find (dd ++ [tn ++ "-" ++ rid]) with
  | some n =>
    rw [fsMkdir_exist hanc hlen hfd] at h1
    simp at h1
  | none =>
    rw [fsMkdir_ok hanc hlen hfd]
    exact ⟨rfl, rfl⟩

theorem stage2_analysis {dd : List String} {tn rid : String} {tar : List TarEntry} {fs : FS}
    (hanc : ancestorsDirs fs dd = true) (hlen : dd.length ≤ pathFuel)
    (hns : noSymlinkUnder fs (getReleaseDir dd tn rid) = true)
    (hin : archiveStaysInside (getReleaseDir dd tn rid) 1 tar = true)
    (h1 : (stage1 dd tn rid fs).2 = none) :
    (∀ p, withinPath (getReleaseDir dd tn rid) p = false →
      (stage2 dd tn rid tar fs).1.find p = fs.find p) ∧
    ancestorsDirs (stage2 dd tn rid tar fs).1 (getReleaseDir dd tn rid) = true ∧
    noSymlinkUnder (stage2 dd tn rid tar fs).1 (getReleaseDir dd tn rid) = true ∧
    (∀ p, fs.find p = some Node.dir →
      (stage2 dd tn rid tar fs).1.find p = some Node.dir) := by
  obtain ⟨hfd, hst⟩ := stage1_ok hanc hlen h1
  unfold stage2
  rw [hst]
  have hanc1 : ancestorsDirs (fs.insert (getReleaseDir dd tn rid) Node.dir)
      (getReleaseDir dd tn rid) = true := by
    simp only [getReleaseDir] at *
    exact ancestors_after_mkdir hanc
  have hns1 : noSymlinkUnder (fs.insert (getReleaseDir dd tn rid) Node.dir)
      (getReleaseDir dd tn rid) = true := noSym_insert (by rfl) hns
  have hdne : getReleaseDir dd tn rid ≠ [] := by
    simp only [getReleaseDir]
    exact app_single_ne_nil dd _
  obtain ⟨hf, ha, hn⟩ := extract_inv (getReleaseDir dd tn rid) 1 hdne tar
    (fs.insert (getReleaseDir dd tn rid) Node.dir) hanc1 hns1 hin
  refine ⟨?_, ha, hn, ?_⟩
  · intro p hp
    have hpd : p ≠ getReleaseDir dd tn rid := by
      intro hh
      rw [hh, withinPath_self] at hp
      exact Bool.noConfusion hp
    rw [show extractTarGz tar (getReleaseDir dd tn rid) 1
          (fs.insert (getReleaseDir dd tn rid) Node.dir) =
        extractLoop (getReleaseDir dd tn rid) 1
          (fs.insert (getReleaseDir dd tn rid) Node.dir) tar from rfl]
    rw [hf p (Or.inl hp), FS.find_insert_ne _ _ hpd]
  · intro p hp
    have hpd : p ≠ getReleaseDir dd tn rid := by
      intro hh
      rw [hh, hfd] at hp
      exact Option.noConfusion hp
    rw [show extractTarGz tar (getReleaseDir dd tn rid) 1
          (fs.insert (getReleaseDir dd tn rid) Node.dir) =
        extractLoop (getReleaseDir dd tn rid) 1
          (fs.insert (getReleaseDir dd tn rid) Node.dir) tar from rfl]
    exact extract_dir_keep (getReleaseDir dd tn rid) 1 tar _ p
      (by rw [FS.find_insert_ne _ _ hpd]; exact hp)

theorem stage3_ok {dd : List String} {tn rid : String} {tar : List TarEntry} {fs : FS}
    (hanc2 : ancestorsDirs (stage2 dd tn rid tar fs).1 dd = true)
    (hlen : dd.length ≤ pathFuel)
    (h3 : (stage3 dd tn rid tar fs).2 = none) :
    (stage2 dd tn rid tar fs).1.find (tmpLinkPath dd tn) = none ∧
    (stage3 dd tn rid tar fs).1 =
      (stage2 dd tn rid tar fs).1.insert (tmpLinkPath dd tn)
        (Node.symlink (getReleaseDir dd tn rid)) := by
  unfold stage3 at h3 ⊢
  simp only [tmpLinkPath] at h3 ⊢
  cases hfd : (stage2 dd tn rid tar fs).1.find (dd ++ [tn ++ ".tmp"]) with
  | some n =>
    rw [fsSymlink_exist hanc2 hlen hfd] at h3
    simp at h3
  | none =>
    rw [fsSymlink_ok hanc2 hlen hfd]
    exact ⟨rfl, rfl⟩

theorem stage4_pointer {dd : List String} {tn rid : String} {tar : List TarEntry} {fs : FS}
    (hanc3 : ancestorsDirs (stage3 dd tn rid tar fs).1 dd = true)
    (hlen : dd.length ≤ pathFuel)
    (htmp : (stage3 dd tn rid tar fs).1.find (tmpLinkPath dd tn) =
      some (Node.symlink (getReleaseDir dd tn rid)))
    (h4 : (stage4 dd tn rid tar fs).2 = none) :
    (stage4 dd tn rid tar fs).1.find (getReleaseSymlink dd tn) =
      some (Node.symlink (getReleaseDir dd tn rid)) := by
  unfold stage4 at h4 ⊢
  simp only [tmpLinkPath, getReleaseSymlink] at h4 htmp ⊢
  rw [fsRename_spec hanc3 hlen] at h4 ⊢
  rw [htmp] at h4 ⊢
  cases hfl : (stage3 dd tn rid tar fs).1.find (dd ++ [tn]) with
  | some n =>
    cases n with
    | dir =>
      rw [hfl] at h4
      simp at h4
    | file cont =>
      exact FS.find_insert_self _ _ _
    | symlink t =>
      exact FS.find_insert_self _ _ _
  | none =>
    exact FS.find_insert_self _ _ _

theorem app_single_congr_ne {dd : List String} {x y : String} (h : x ≠ y) :
    dd ++ [x] ≠ dd ++ [y] := by
  intro hh
  have hxy := List.append_inj_right hh (by rfl)
  exact absurd (List.cons_eq_cons.mp hxy).1 h

theorem link_not_within_dest (dd : List String) (tn rid : String) :
    withinPath (getReleaseDir dd tn rid) (getReleaseSymlink dd tn) = false := by
  simp only [getReleaseDir, getReleaseSymlink]
  exact withinPath_sibling (relname_ne_target tn rid)

theorem tmp_not_within_dest (dd : List String) (tn rid : String) :
    withinPath (getReleaseDir dd tn rid) (tmpLinkPath dd tn) = false := by
  simp only [getReleaseDir, tmpLinkPath]
  exact withinPath_sibling (relname_ne_tmpname tn rid)

theorem link_ne_tmp (dd : List String) (tn : String) :
    getReleaseSymlink dd tn ≠ tmpLinkPath dd tn := by
  simp only [getReleaseSymlink, tmpLinkPath]
  exact app_single_congr_ne (fun hh => tmpname_ne_target tn hh.symm)

/-- C8: if the release directory for `(targetName, releaseID)` already
exists (as any filesystem object), `deployRelease` fails with the
already-exists error from `os.Mkdir` before any mutation: the returned
state is exactly the input state, so the pre-existing directory's contents
and the active pointer are untouched. -/
theorem allocate_existing_dir_aborts_unchanged (dd : List String) (tn rid lrid : String)
    (tar : List TarEntry) (fs : FS)
    (hanc : ancestorsDirs fs dd = true) (hlen : dd.length ≤ pathFuel)
    (hex : (fs.find (getReleaseDir dd tn rid)).isSome = true) :
    deployRelease dd tn rid lrid tar fs = (fs, some Err.exist) := by
  obtain ⟨n, hn⟩ := Option.isSome_iff_exists.mp hex
  have hm : fsMkdir fs (getReleaseDir dd tn rid) = (fs, some Err.exist) := by
    simp only [getReleaseDir] at hn ⊢
    exact fsMkdir_exist hanc hlen hn
  have h1 : (stage1 dd tn rid fs).2 = some Err.exist := by
    unfold stage1
    rw [hm]
  rw [deploy_eq_stage1 h1]
  unfold stage1
  rw [hm]

/-- Witness for C8 at a concrete input: the release directory
/deploy/myapp-1 already exists, and the deploy call returns the untouched
state with the already-exists error. -/
theorem allocate_existing_dir_aborts_unchanged_witness :
    ancestorsDirs fsWithRelease ["deploy"] = true ∧
    (["deploy"] : List String).length ≤ pathFuel ∧
    (fsWithRelease.find (getReleaseDir ["deploy"] "myapp" "1")).isSome = true ∧
    deployRelease ["deploy"] "myapp" "1" "" [] fsWithRelease = (fsWithRelease, some Err.exist) :=
  ⟨by decide, by decide, by decide,
    allocate_existing_dir_aborts_unchanged ["deploy"] "myapp" "1" "" [] fsWithRelease
      (by decide) (by decide) (by decide)⟩

/-- C1 (amended): a deployment attempt that fails before the rename
commits — at allocation, extraction, temporary-symlink creation, or the
rename itself — leaves the active pointer entry exactly as it was, and a
release directory the pointer referred to still exists, PROVIDED the
deploy directory is sane (its ancestors are directories, nothing below
the new release path is a symbolic link) and no archive entry's stripped
path escapes the release directory.  The escape proviso is forced by the
path-traversal bug exhibited for C3: an escaping entry can create a
directory at the pointer path itself. -/
theorem deploy_pre_rename_preserves_pointer (dd : List String) (tn rid lrid : String)
    (tar : List TarEntry) (fs : FS)
    (hanc : ancestorsDirs fs dd = true) (hlen : dd.length ≤ pathFuel)
    (hns : noSymlinkUnder fs (getReleaseDir dd tn rid) = true)
    (hin : archiveStaysInside (getReleaseDir dd tn rid) 1 tar = true)
    (hfail :
      (∃ e, (stage1 dd tn rid fs).2 = some e) ∨
      ((stage1 dd tn rid fs).2 = none ∧ ∃ e, (stage2 dd tn rid tar fs).2 = some e) ∨
      ((stage1 dd tn rid fs).2 = none ∧ (stage2 dd tn rid tar fs).2 = none ∧
        ∃ e, (stage3 dd tn rid tar fs).2 = some e) ∨
      ((stage1 dd tn rid fs).2 = none ∧ (stage2 dd tn rid tar fs).2 = none ∧
        (stage3 dd tn rid tar fs).2 = none ∧ ∃ e, (stage4 dd tn rid tar fs).2 = some e)) :
    (deployRelease dd tn rid lrid tar fs).1.find (getReleaseSymlink dd tn) =
      fs.find (getReleaseSymlink dd tn) ∧
    ∀ t, fs.find (getReleaseSymlink dd tn) = some (Node.symlink t) →
      fs.find t = some Node.dir →
      (deployRelease dd tn rid lrid tar fs).1.find t = some Node.dir := by
  rcases hfail with ⟨e, h1⟩ | ⟨h1, e, h2⟩ | ⟨h1, h2, e, h3⟩ | ⟨h1, h2, h3, e, h4⟩
  · rw [deploy_eq_stage1 h1]
    have hs1 : (stage1 dd tn rid fs).1 = fs := by
      unfold stage1 at h1 ⊢
      exact fsMkdir_fail h1
    rw [hs1]
    exact ⟨rfl, fun t _ ht => ht⟩
  · rw [deploy_eq_stage2 h1 h2]
    obtain ⟨hframe, _, _, hdirk⟩ := stage2_analysis hanc hlen hns hin h1
    exact ⟨hframe _ (link_not_within_dest dd tn rid), fun t _ ht => hdirk t ht⟩
  · rw [deploy_eq_stage3 h1 h2 h3]
    have hs3 : (stage3 dd tn rid tar fs).1 = (stage2 dd tn rid tar fs).1 := by
      unfold stage3 at h3 ⊢
      exact fsSymlink_fail h3
    rw [hs3]
    obtain ⟨hframe, _, _, hdirk⟩ := stage2_analysis hanc hlen hns hin h1
    exact ⟨hframe _ (link_not_within_dest dd tn rid), fun t _ ht => hdirk t ht⟩
  · rw [deploy_eq_stage4 h1 h2 h3 h4]
    have hs4 : (stage4 dd tn rid tar fs).1 = (stage3 dd tn rid tar fs).1 := by
      unfold stage4 at h4 ⊢
      exact fsRename_fail h4
    obtain ⟨hframe, hanc2dest, _, hdirk⟩ := stage2_analysis hanc hlen hns hin h1
    have hanc2dd : ancestorsDirs (stage2 dd tn rid tar fs).1 dd = true := by
      simp only [getReleaseDir] at hanc2dest
      exact ancestors_of_concat hanc2dest
    obtain ⟨htmpnone, hs3⟩ := stage3_ok hanc2dd hlen h3
    rw [hs4, hs3]
    constructor
    · rw [FS.find_insert_ne _ _ (link_ne_tmp dd tn)]
      exact hframe _ (link_not_within_dest dd tn rid)
    · intro t _ ht
      have ht2 := hdirk t ht
      have htne : t ≠ tmpLinkPath dd tn := by
        intro hh
        rw [hh, htmpnone] at ht2
        exact Option.noConfusion ht2
      rw [FS.find_insert_ne _ _ htne]
      exact ht2

/-- Witness for C1 (amended) at a concrete input: allocation fails because
the release directory already exists, and the (absent) pointer entry is
unchanged. -/
theorem deploy_pre_rename_preserves_pointer_witness :
    (∃ e, (stage1 ["deploy"] "myapp" "1" fsWithRelease).2 = some e) ∧
    ((deployRelease ["deploy"] "myapp" "1" "" [] fsWithRelease).1.find
        (getReleaseSymlink ["deploy"] "myapp") =
      fsWithRelease.find (getReleaseSymlink ["deploy"] "myapp") ∧
    ∀ t, fsWithRelease.find (getReleaseSymlink ["deploy"] "myapp") = some (Node.symlink t) →
      fsWithRelease.find t = some Node.dir →
      (deployRelease ["deploy"] "myapp" "1" "" [] fsWithRelease).1.find t = some Node.dir) :=
  ⟨⟨Err.exist, by decide⟩,
    deploy_pre_rename_preserves_pointer ["deploy"] "myapp" "1" "" [] fsWithRelease
      (by decide) (by decide) (by decide) (by decide)
      (Or.inl ⟨Err.exist, by decide⟩)⟩

/-- Deploy dir serving release 42 with a leftover temporary symlink but a
fresh (absent) release directory for the incoming release 43. -/
def fsC10Fixture : FS :=
  ⟨[(["deploy"], Node.dir),
    (["deploy", "myapp.tmp"], Node.symlink ["deploy", "myapp-42"]),
    (["deploy", "myapp-42"], Node.dir),
    (["deploy", "myapp"], Node.symlink ["deploy", "myapp-42"])], []⟩

/-- C10 (amended): with any object left behind at the temporary promotion
path <deployDir>/<targetName>.tmp, a deploy attempt that gets past
allocation and extraction fails at the symlink-creation step with the
EEXIST error, the active pointer entry and the leftover .tmp entry are
both unchanged, and nothing removes the .tmp object.  (As with C1, the
no-escape proviso on the archive is forced by the C3 traversal bug, and a
deploy can also fail at an earlier step, as the counterexample shows.) -/
theorem leftover_tmp_blocks_promotion (dd : List String) (tn rid lrid : String)
    (tar : List TarEntry) (fs : FS)
    (hanc : ancestorsDirs fs dd = true) (hlen : dd.length ≤ pathFuel)
    (hns : noSymlinkUnder fs (getReleaseDir dd tn rid) = true)
    (hin : archiveStaysInside (getReleaseDir dd tn rid) 1 tar = true)
    (htmp : (fs.find (tmpLinkPath dd tn)).isSome = true)
    (h1 : (stage1 dd tn rid fs).2 = none)
    (h2 : (stage2 dd tn rid tar fs).2 = none) :
    deployRelease dd tn rid lrid tar fs = ((stage2 dd tn rid tar fs).1, some Err.exist) ∧
    (deployRelease dd tn rid lrid tar fs).1.find (tmpLinkPath dd tn) =
      fs.find (tmpLinkPath dd tn) ∧
    (deployRelease dd tn rid lrid tar fs).1.find (getReleaseSymlink dd tn) =
      fs.find (getReleaseSymlink dd tn) := by
  obtain ⟨hframe, hanc2dest, _, _⟩ := stage2_analysis hanc hlen hns hin h1
  have hanc2dd : ancestorsDirs (stage2 dd tn rid tar fs).1 dd = true := by
    simp only [getReleaseDir] at hanc2dest
    exact ancestors_of_concat hanc2dest
  obtain ⟨n, hn⟩ := Option.isSome_iff_exists.mp htmp
  have htmp2 : (stage2 dd tn rid tar fs).1.find (tmpLinkPath dd tn) = some n := by
    rw [hframe _ (tmp_not_within_dest dd tn rid)]
    exact hn
  have hst3 : stage3 dd tn rid tar fs = ((stage2 dd tn rid tar fs).1, some Err.exist) := by
    unfold stage3
    simp only [tmpLinkPath] at htmp2 ⊢
    exact fsSymlink_exist hanc2dd hlen htmp2
  rw [deploy_eq_stage3 h1 h2 (show (stage3 dd tn rid tar fs).2 = some Err.exist by
    rw [hst3]), hst3]
  exact ⟨rfl, hframe _ (tmp_not_within_dest dd tn rid),
    hframe _ (link_not_within_dest dd tn rid)⟩

/-- Witness for C10 (amended): leftover .tmp symlink, fresh release
directory, benign archive; the deploy fails with EEXIST at the symlink
step and both the pointer and the .tmp entry are unchanged. -/
theorem leftover_tmp_blocks_promotion_witness :
    (fsC10Fixture.find (tmpLinkPath ["deploy"] "myapp")).isSome = true ∧
    (stage1 ["deploy"] "myapp" "43" fsC10Fixture).2 = none ∧
    (stage2 ["deploy"] "myapp" "43" tarV2 fsC10Fixture).2 = none ∧
    (deployRelease ["deploy"] "myapp" "43" "42" tarV2 fsC10Fixture =
      ((stage2 ["deploy"] "myapp" "43" tarV2 fsC10Fixture).1, some Err.exist) ∧
    (deployRelease ["deploy"] "myapp" "43" "42" tarV2 fsC10Fixture).1.find
        (tmpLinkPath ["deploy"] "myapp") =
      fsC10Fixture.find (tmpLinkPath ["deploy"] "myapp") ∧
    (deployRelease ["deploy"] "myapp" "43" "42" tarV2 fsC10Fixture).1.find
        (getReleaseSymlink ["deploy"] "myapp") =
      fsC10Fixture.find (getReleaseSymlink ["deploy"] "myapp")) :=
  ⟨by decide, by decide, by decide,
    leftover_tmp_blocks_promotion ["deploy"] "myapp" "43" "42" tarV2 fsC10Fixture
      (by decide) (by decide) (by decide) (by decide) (by decide) (by decide) (by decide)⟩

/-- C7 (amended): when allocation, extraction and promotion all succeed
but removing the previous release directory fails, `deployRelease` returns
the retirement error — so `main` logs "update failed" for the cycle, not
the claimed "update successful" — but the promotion itself is never
undone: the active pointer still resolves to the newly promoted release
directory. -/
theorem retire_failure_keeps_promotion (dd : List String) (tn rid lrid : String)
    (tar : List TarEntry) (fs : FS) (e : Err)
    (hanc : ancestorsDirs fs dd = true) (hlen : dd.length ≤ pathFuel)
    (hns : noSymlinkUnder fs (getReleaseDir dd tn rid) = true)
    (hin : archiveStaysInside (getReleaseDir dd tn rid) 1 tar = true)
    (h1 : (stage1 dd tn rid fs).2 = none)
    (h2 : (stage2 dd tn rid tar fs).2 = none)
    (h3 : (stage3 dd tn rid tar fs).2 = none)
    (h4 : (stage4 dd tn rid tar fs).2 = none)
    (hrem : (fsRemoveAll (stage4 dd tn rid tar fs).1 (getReleaseDir dd tn lrid)).2 = some e) :
    (deployRelease dd tn rid lrid tar fs).2 = some e ∧
    updateOutcome (deployRelease dd tn rid lrid tar fs).2 = "update failed" ∧
    (deployRelease dd tn rid lrid tar fs).1.find (getReleaseSymlink dd tn) =
      some (Node.symlink (getReleaseDir dd tn rid)) := by
  have hkeep : (fsRemoveAll (stage4 dd tn rid tar fs).1 (getReleaseDir dd tn lrid)).1 =
      (stage4 dd tn rid tar fs).1 := fsRemoveAll_fail hrem
  obtain ⟨_, hanc2dest, _, _⟩ := stage2_analysis hanc hlen hns hin h1
  have hanc2dd : ancestorsDirs (stage2 dd tn rid tar fs).1 dd = true := by
    simp only [getReleaseDir] at hanc2dest
    exact ancestors_of_concat hanc2dest
  obtain ⟨htmpnone, hs3⟩ := stage3_ok hanc2dd hlen h3
  have hanc3 : ancestorsDirs (stage3 dd tn rid tar fs).1 dd = true := by
    rw [hs3]
    exact ancestors_insert_long hanc2dd (by
      simp only [tmpLinkPath, List.length_append, List.length_singleton]
      omega)
  have htmp3 : (stage3 dd tn rid tar fs).1.find (tmpLinkPath dd tn) =
      some (Node.symlink (getReleaseDir dd tn rid)) := by
    rw [hs3]
    exact FS.find_insert_self _ _ _
  refine ⟨?_, ?_, ?_⟩
  · rw [deploy_eq_retire h1 h2 h3 h4]
    exact hrem
  · rw [deploy_eq_retire h1 h2 h3 h4, hrem]
    rfl
  · rw [deploy_eq_retire h1 h2 h3 h4, hkeep]
    exact stage4_pointer hanc3 hlen htmp3 h4

/-- Witness for C7 (amended): the frozen previous release directory makes
retirement fail; the deploy returns the error and the pointer serves the
new release. -/
theorem retire_failure_keeps_promotion_witness :
    (stage1 ["deploy"] "myapp" "43" fsFrozenOld).2 = none ∧
    (stage4 ["deploy"] "myapp" "43" tarV2 fsFrozenOld).2 = none ∧
    (fsRemoveAll (stage4 ["deploy"] "myapp" "43" tarV2 fsFrozenOld).1
      (getReleaseDir ["deploy"] "myapp" "42")).2 = some Err.removeFailed ∧
    ((deployRelease ["deploy"] "myapp" "43" "42" tarV2 fsFrozenOld).2 = some Err.removeFailed ∧
    updateOutcome (deployRelease ["deploy"] "myapp" "43" "42" tarV2 fsFrozenOld).2 =
      "update failed" ∧
    (deployRelease ["deploy"] "myapp" "43" "42" tarV2 fsFrozenOld).1.find
        (getReleaseSymlink ["deploy"] "myapp") =
      some (Node.symlink (getReleaseDir ["deploy"] "myapp" "43"))) :=
  ⟨by decide, by decide, by decide,
    retire_failure_keeps_promotion ["deploy"] "myapp" "43" "42" tarV2 fsFrozenOld
      Err.removeFailed (by decide) (by decide) (by decide) (by decide) (by decide)
      (by decide) (by decide) (by decide) (by decide)⟩

/-- C5 (amended): extraction does NOT create missing ancestor directories
for regular-file entries.  For a regular-file entry whose computed parent
path does not exist, `os.Create` fails with the missing-parent error and
extraction aborts, writing nothing — archives must list ancestor
directories before their children. -/
theorem extract_missing_parent_aborts (fs : FS) (dest : List String) (strip : Nat)
    (name content : String) (rp : List String)
    (hloc : isLocalName name = true) (hpax : name ≠ "pax_global_header")
    (hne : entryTarget dest strip name ≠ [])
    (hres : resolveFrom fs pathFuel [] (entryTarget dest strip name).dropLast = some rp)
    (hrp : rp ≠ []) (hfind : fs.find rp = none) :
    extractTarGz [⟨name, TarType.reg, content⟩] dest strip fs = (fs, some Err.notExist) := by
  unfold extractTarGz extractLoop
  dsimp only
  rw [if_pos hloc, if_neg hpax]
  unfold fsCreateWrite
  rw [if_neg hne, hres]
  dsimp only
  rw [if_neg (by
    rintro (hh | hh)
    · exact hrp hh
    · rw [hfind] at hh
      exact Option.noConfusion hh)]

/-- Witness for C5 (amended): the archive lists w/sub/b with no prior
entry for its parent; extraction aborts with the missing-parent error. -/
theorem extract_missing_parent_aborts_witness :
    isLocalName "w/sub/b" = true ∧
    resolveFrom fsWithRelease pathFuel []
      (entryTarget ["deploy", "myapp-1"] 1 "w/sub/b").dropLast =
      some ["deploy", "myapp-1", "sub"] ∧
    fsWithRelease.find ["deploy", "myapp-1", "sub"] = none ∧
    extractTarGz [⟨"w/sub/b", TarType.reg, "y"⟩] ["deploy", "myapp-1"] 1 fsWithRelease =
      (fsWithRelease, some Err.notExist) :=
  ⟨by decide, by decide, by decide,
    extract_missing_parent_aborts fsWithRelease ["deploy", "myapp-1"] 1 "w/sub/b" "y"
      ["deploy", "myapp-1", "sub"] (by decide) (by decide) (by decide) (by decide)
      (by decide) (by decide)⟩

theorem joinAbs_empty (dest : List String) : joinAbs dest "" = dest := by
  show (cleanStack (splitOnChar (Char.ofNat 47) "") dest.reverse).reverse = dest
  rw [show splitOnChar (Char.ofNat 47) "" = [""] from rfl,
      show ∀ acc : List String, cleanStack [""] acc = acc from fun acc => rfl]
  exact List.reverse_reverse dest

/-- C6 (amended): an entry whose path strips away completely is skipped
only when it is a DIRECTORY entry (the `MkdirAll` of the existing
destination is a no-op and no error); a fully-stripped REGULAR-FILE entry
instead makes extraction fail: the code calls `os.Create` on the
destination directory itself, which fails with EISDIR. -/
theorem stripped_entry_behavior (fs : FS) (dest : List String) (strip : Nat)
    (name c : String)
    (hloc : isLocalName name = true) (hpax : name ≠ "pax_global_header")
    (hstrip : strippedRel strip name = "")
    (hanc : ancestorsDirs fs dest = true) (hdne : dest ≠ [])
    (hlen : dest.length ≤ pathFuel) :
    extractTarGz [⟨name, TarType.dir, c⟩] dest strip fs = (fs, none) ∧
    extractTarGz [⟨name, TarType.reg, c⟩] dest strip fs = (fs, some Err.isDir) := by
  have htar : entryTarget dest strip name = dest := by
    unfold entryTarget
    rw [hstrip]
    exact joinAbs_empty dest
  constructor
  · unfold extractTarGz extractLoop
    dsimp only
    rw [if_pos hloc, if_neg hpax]
    rw [htar, fsMkdirAll_of_ancestors hanc]
    rfl
  · unfold extractTarGz extractLoop
    dsimp only
    rw [if_pos hloc, if_neg hpax]
    rw [htar, fsCreateWrite_isDir hanc hdne hlen]

/-- Witness for C6 (amended): a one-component entry with one stripped
component — the directory form is a no-op, the regular-file form errors
with EISDIR. -/
theorem stripped_entry_behavior_witness :
    isLocalName "wrapper" = true ∧
    strippedRel 1 "wrapper" = "" ∧
    ancestorsDirs fsWithRelease ["deploy", "myapp-1"] = true ∧
    (extractTarGz [⟨"wrapper", TarType.dir, "z"⟩] ["deploy", "myapp-1"] 1 fsWithRelease =
      (fsWithRelease, none) ∧
    extractTarGz [⟨"wrapper", TarType.reg, "z"⟩] ["deploy", "myapp-1"] 1 fsWithRelease =
      (fsWithRelease, some Err.isDir)) :=
  ⟨by decide, by decide, by decide,
    stripped_entry_behavior fsWithRelease ["deploy", "myapp-1"] 1 "wrapper" "z"
      (by decide) (by decide) (by decide) (by decide) (by decide) (by decide)⟩

/-- C9 (amended): for every well-formed key and well-formed signature, a
mismatching payload makes `verifySignature` return `false` together with
the VerificationFailed ERROR VALUE (the spec's `(false, VerificationFailed)`;
the caller treats it non-fatally by branching only on the boolean), and
the matching triple returns `(true, nil)`. -/
theorem verify_decode_ok_outcomes (m : Minisign) (pk payload sig : String) (k s : Nat)
    (hk : m.decodeKey pk = some k) (hs : m.decodeSig sig = some s) :
    (m.check k payload s = false →
      verifySignature m pk payload sig = (false, some Err.verificationFailed)) ∧
    (m.check k payload s = true →
      verifySignature m pk payload sig = (true, none)) := by
  unfold verifySignature
  rw [hk, hs]
  dsimp only
  constructor
  · intro hc
    rw [hc]
    rfl
  · intro hc
    rw [hc]
    rfl

/-- Witness for C9 (amended) on the toy minisign instance: decode both
inputs, then a mismatching payload gives `(false, VerificationFailed)` and
the matching payload gives `(true, nil)`. -/
theorem verify_decode_ok_outcomes_witness :
    toyMinisign.decodeKey "KEY" = some 1 ∧
    toyMinisign.decodeSig "SIG" = some 7 ∧
    ((toyMinisign.check 1 "bad" 7 = false →
      verifySignature toyMinisign "KEY" "bad" "SIG" = (false, some Err.verificationFailed)) ∧
    (toyMinisign.check 1 "bad" 7 = true →
      verifySignature toyMinisign "KEY" "bad" "SIG" = (true, none))) :=
  ⟨by decide, by decide,
    verify_decode_ok_outcomes toyMinisign "KEY" "bad" "SIG" 1 7 (by decide) (by decide)⟩
